import Mathlib

/-!
# Verification of the substrate-stack model (`substratestack/__init__.py`)

A shallow embedding of the substrate-stack data model and its
transformation algorithms: interface bookkeeping, position arithmetic,
metal-extension standardization, oxide-layer splitting and merging
(the simplify pipeline), via geometry, and the state effects of the two
file exporters.

Modelling conventions:

* Numeric quantities (thicknesses, permittivities, positions, …) are
  embedded as exact rationals `ℚ`.
* Python object identity is embedded with explicit identifiers: every
  interface and every oxide layer carries a numeric `id` allocated from
  the stack's `next_id` counter; metals are identified by `name` (the
  spec's unique key) and vias by value.  List operations that Python
  performs by object identity (`list.index`, `list.remove`) become
  searches for the corresponding identifier.
* The source maintains the adjacency invariant (spec §3, invariant 2):
  the interface at list position `i` has `bottom_layer = oxide_layers[i-1]`
  (the bulk layer when `i = 0`) and `top_layer = oxide_layers[i]` (absent
  at the very top).  Every mutating operation of the source re-establishes
  these pointer attributes, so the embedding represents the
  `bottom_layer` / `top_layer` pointers positionally instead of storing
  them; pointer reads of the source are translated to positional reads,
  and pointer relinking instructions become representational no-ops.
* A Python statement that raises (a failed `assert`, `None` attribute
  access / arithmetic, `list.remove` or `list.index` on a missing
  element, division by zero) is embedded as an `Except` error (for
  stack-mutating operations the error value carries the stack state at
  the moment of the raise, since Python mutations performed before the
  raise persist) or as `Option.none` for query functions.
* Python 2 `None` comparison semantics (`None` orders below every
  number) are embedded by `pyGT` where the source may compare a
  possibly-`None` position.
-/

namespace SubstrateStackPy

/-- Metal extension direction `UP = +1` (source line `UP = +1`). -/
def UP : Int := 1

/-- Metal extension direction `DOWN = -1` (source line `DOWN = -1`). -/
def DOWN : Int := -1

/-- The bulk layer (class `BulkLayer`): thickness, relative permittivity,
resistivity and loss tangent. -/
structure BulkLayer where
  thickness : ℚ
  epsilon_rel : ℚ
  resistivity : ℚ
  loss_tangent : ℚ
  deriving Repr, DecidableEq

/-- An oxide layer (class `OxideLayer`): the `id` stands for the Python
object's identity, the remaining fields are its physical attributes. -/
structure OxideLayer where
  id : Nat
  thickness : ℚ
  epsilon_rel : ℚ
  loss_tangent : ℚ
  deriving Repr, DecidableEq

/-- An interface between two adjacent layers (class `Interface`).  The
`id` stands for object identity; `metal` holds the name of the attached
metal layer, if any.  The `bottom_layer`/`top_layer` pointers of the
source are represented positionally (see the module docstring). -/
structure Interface where
  id : Nat
  metal : Option String
  deriving Repr, DecidableEq

/-- A metal layer (class `MetalLayer`).  `bottom_interface` and
`top_interface` hold interface identifiers.  The write-only
`top_via`/`bottom_via` attributes of the source (assigned in `add_via`,
never read) are not represented. -/
structure MetalLayer where
  name : String
  thickness : ℚ
  sheet_resistance : ℚ
  extend_direction : Int
  bottom_interface : Option Nat
  top_interface : Option Nat
  deriving Repr, DecidableEq

/-- A via (class `Via`).  `top_metal`/`bottom_metal` hold metal names;
the `_stack` back-reference is implicit (height queries take the stack
as an argument). -/
structure Via where
  name : String
  resistance : ℚ
  width : ℚ
  spacing : ℚ
  top_metal : Option String
  bottom_metal : Option String
  deriving Repr, DecidableEq

/-- The substrate stack (class `SubstrateStack`).  `next_id` is the
allocator for interface / oxide-layer identities. -/
structure SubstrateStack where
  bulk_layer : BulkLayer
  oxide_layers : List OxideLayer
  interfaces : List Interface
  metal_layers : List MetalLayer
  vias : List Via
  next_id : Nat
  deriving Repr, DecidableEq

/-- Remove the first element satisfying `p`; `none` when no element
does.  This mirrors Python's `list.remove`, which raises `ValueError`
when the element is absent. -/
def removeFirst {α : Type} (p : α → Bool) : List α → Option (List α)
  | [] => none
  | x :: xs => if p x then some xs else (removeFirst p xs).map (x :: ·)

/-- Insert at position `n`, appending when `n` exceeds the length; this
mirrors Python's `list.insert` clamping behaviour. -/
def insertAt {α : Type} (n : Nat) (a : α) : List α → List α
  | [] => [a]
  | x :: xs =>
    match n with
    | 0 => a :: x :: xs
    | m + 1 => x :: insertAt m a xs

/-- CPython 2 `>` on possibly-`None` numbers: `None` orders strictly
below every number (`None > x` is false, `x > None` is true). -/
def pyGT : Option ℚ → Option ℚ → Bool
  | none, _ => false
  | some _, none => true
  | some a, some b => decide (a > b)

/-- The float-comparison tolerance of `get_interface_by_position`
(`float_threshold = 1e-15`). -/
def float_threshold : ℚ := 1 / 10 ^ 15

/-- The thicknesses of the `bottom_layer` attributes of the interfaces,
bottom to top: the bulk layer below interface 0, then one oxide layer
per interface (adjacency invariant). -/
def bottomThicknesses (s : SubstrateStack) : List ℚ :=
  s.bulk_layer.thickness :: s.oxide_layers.map (·.thickness)

/-- The accumulating walk of `get_interface_position`: starting from
`pos`, add each interface's `bottom_layer.thickness` and stop at the
interface with identity `target`. -/
def gipAux : List Interface → List ℚ → ℚ → Nat → Option ℚ
  | itf :: itfs, th :: ths, pos, target =>
    let p := pos + th
    if itf.id = target then some p else gipAux itfs ths p target
  | _, _, _, _ => none

/-- `SubstrateStack.get_interface_position`: absolute position of the
interface with identity `target` (top of bulk = 0), or `none` when the
interface is not part of the stack (the source then falls through and
returns `None`). -/
def get_interface_position (s : SubstrateStack) (target : Nat) : Option ℚ :=
  gipAux s.interfaces (bottomThicknesses s) (- s.bulk_layer.thickness) target

/-- `SubstrateStack.get_interface_number`: index of the interface with
the given identity (`list.index`). -/
def get_interface_number (s : SubstrateStack) (target : Nat) : Nat :=
  s.interfaces.findIdx (·.id = target)

/-- `SubstrateStack.get_interface_by_position`: the first interface whose
position is within `float_threshold` of `position`. -/
def get_interface_by_position (s : SubstrateStack) (position : ℚ) :
    Option Interface :=
  s.interfaces.find? fun itf =>
    match get_interface_position s itf.id with
    | some q => decide (|q - position| < float_threshold)
    | none => false

/-- `SubstrateStack.get_metal_layer_by_name`. -/
def get_metal_layer_by_name (s : SubstrateStack) (name : String) :
    Option MetalLayer :=
  s.metal_layers.find? (·.name = name)

/-- `SubstrateStack.get_via_by_top_metal`: first via whose `top_metal`
is the given metal. -/
def get_via_by_top_metal (s : SubstrateStack) (name : String) : Option Via :=
  s.vias.find? (·.top_metal = some name)

/-- `SubstrateStack.get_via_by_bottom_metal`. -/
def get_via_by_bottom_metal (s : SubstrateStack) (name : String) : Option Via :=
  s.vias.find? (·.bottom_metal = some name)

/-- `SubstrateStack.get_stack_height`: sum of the oxide thicknesses. -/
def get_stack_height (s : SubstrateStack) : ℚ :=
  (s.oxide_layers.map (·.thickness)).sum

/-- `SubstrateStack.__init__`: a fresh stack holding only the bulk layer
and its top interface. -/
def mkStack (bulk : BulkLayer) : SubstrateStack :=
  { bulk_layer := bulk
    oxide_layers := []
    interfaces := [{ id := 0, metal := none }]
    metal_layers := []
    vias := []
    next_id := 1 }

/-- `SubstrateStack.add_oxide_layer_on_top`: append a new oxide layer
(with the given physical attributes) and its new top interface. -/
def add_oxide_layer_on_top (s : SubstrateStack) (thickness epsilon_rel
    loss_tangent : ℚ) : SubstrateStack :=
  let layer : OxideLayer :=
    { id := s.next_id, thickness := thickness, epsilon_rel := epsilon_rel
      loss_tangent := loss_tangent }
  let topItf : Interface := { id := s.next_id + 1, metal := none }
  { s with
    oxide_layers := s.oxide_layers ++ [layer]
    interfaces := s.interfaces ++ [topItf]
    next_id := s.next_id + 2 }

/-- Replace the `metal` attribute of the interface with identity `tid`. -/
def setInterfaceMetal (s : SubstrateStack) (tid : Nat) (v : Option String) :
    SubstrateStack :=
  { s with interfaces :=
      s.interfaces.map fun itf =>
        if itf.id = tid then { itf with metal := v } else itf }

/-- `SubstrateStack.add_metal_layer`: attach `metal` at the interface
with index `k`; `none` when `k` is out of range (Python `IndexError`).
The metal's own `top_interface`/`bottom_interface` is set according to
its extension direction. -/
def add_metal_layer (s : SubstrateStack) (metal : MetalLayer) (k : Nat) :
    Option SubstrateStack :=
  match s.interfaces[k]? with
  | none => none
  | some itf =>
    let metal1 :=
      if metal.extend_direction = DOWN then
        { metal with top_interface := some itf.id }
      else
        { metal with bottom_interface := some itf.id }
    some (setInterfaceMetal
      { s with metal_layers := s.metal_layers ++ [metal1] } itf.id
      (some metal.name))

/-- `SubstrateStack.add_via`: look both metals up by name, append the
via, and assign `top_metal`/`bottom_metal` by comparing the positions of
the metals' reference interfaces (`bottom_interface or top_interface`),
with CPython 2 `None` comparison semantics.  `none` when a metal lookup
fails (the source's `assert metal1 and metal2`). -/
def add_via (s : SubstrateStack) (via : Via) (metal1_name metal2_name :
    String) : Option SubstrateStack :=
  match get_metal_layer_by_name s metal1_name,
      get_metal_layer_by_name s metal2_name with
  | some metal1, some metal2 =>
    let itf1 := metal1.bottom_interface.orElse fun _ => metal1.top_interface
    let itf2 := metal2.bottom_interface.orElse fun _ => metal2.top_interface
    let pos1 := itf1.bind (get_interface_position s)
    let pos2 := itf2.bind (get_interface_position s)
    let via1 :=
      if pyGT pos1 pos2 then
        { via with top_metal := some metal1.name
                   bottom_metal := some metal2.name }
      else
        { via with top_metal := some metal2.name
                   bottom_metal := some metal1.name }
    some { s with vias := s.vias ++ [via1] }
  | _, _ => none

/-- `SubstrateStack.get_via_height`: gap between the effective top face
of the bottom metal and the effective bottom face of the top metal.
`none` embeds Python raising on a `None` metal, interface or position. -/
def get_via_height (s : SubstrateStack) (via : Via) : Option ℚ := do
  let bm ← via.bottom_metal.bind (get_metal_layer_by_name s)
  let tm ← via.top_metal.bind (get_metal_layer_by_name s)
  let top_of_bottom_metal ←
    if bm.extend_direction = UP then
      (bm.bottom_interface.bind (get_interface_position s)).map
        (· + bm.thickness)
    else
      bm.top_interface.bind (get_interface_position s)
  let bottom_of_top_metal ←
    if tm.extend_direction = DOWN then
      (tm.top_interface.bind (get_interface_position s)).map
        (· - tm.thickness)
    else
      tm.bottom_interface.bind (get_interface_position s)
  pure (bottom_of_top_metal - top_of_bottom_metal)

end SubstrateStackPy

namespace SubstrateStackPy

/-- One traversal step of `SubstrateStack.split_oxide_layer`'s loop over
`enumerate(self.oxide_layers)`, at loop index `i`.  When the layer at
`i` strictly straddles `position` it is shrunk to end at `position`, a
new layer with the same permittivity and loss tangent is inserted above
it, and a new interface is inserted at the index of the old layer's top
interface.  Because the freshly inserted layer's bottom interface sits
exactly at `position` (exact rational arithmetic), its own straddle test
is false, so the traversal continues at `i + 2`; the fuel
`oxide_layers.length + 1` therefore covers every iteration the Python
loop performs. -/
def splitAux : Nat → SubstrateStack → ℚ → Nat → Option Nat →
    SubstrateStack × Option Nat
  | 0, s, _, _, found => (s, found)
  | fuel + 1, s, position, i, found =>
    match s.oxide_layers[i]? with
    | none => (s, found)
    | some ox =>
      let obot := (s.interfaces[i]?).bind fun itf =>
        get_interface_position s itf.id
      let otop := (s.interfaces[i + 1]?).bind fun itf =>
        get_interface_position s itf.id
      match obot, otop with
      | some oxide_bottom, some oxide_top =>
        if oxide_top > position ∧ position > oxide_bottom then
          let shrunk := { ox with thickness := position - oxide_bottom }
          let newLayer : OxideLayer :=
            { id := s.next_id, thickness := oxide_top - position
              epsilon_rel := ox.epsilon_rel
              loss_tangent := ox.loss_tangent }
          let newItf : Interface := { id := s.next_id + 1, metal := none }
          let topItfId := ((s.interfaces[i + 1]?).map (·.id)).getD 0
          let s1 : SubstrateStack :=
            { s with
              oxide_layers :=
                insertAt (i + 1) newLayer (s.oxide_layers.set i shrunk)
              interfaces :=
                insertAt (get_interface_number s topItfId) newItf
                  s.interfaces
              next_id := s.next_id + 2 }
          splitAux fuel s1 position (i + 2) (some newItf.id)
        else
          splitAux fuel s position (i + 1) found
      | _, _ =>
        -- A missing position would make CPython 2 evaluate the straddle
        -- comparison against `None` (ordering below every number), so
        -- the straddle test is false and the loop moves on.
        splitAux fuel s position (i + 1) found

/-- `SubstrateStack.split_oxide_layer`: split the oxide stack at the
given absolute position, returning the updated stack and the identity
of the newly created interface (`None` when no layer straddles the
position). -/
def split_oxide_layer (s : SubstrateStack) (position : ℚ) :
    SubstrateStack × Option Nat :=
  splitAux (s.oxide_layers.length + 1) s position 0 none

/-- `SubstrateStack.is_standard`: every metal owns both interfaces and
extends up. -/
def is_standard (s : SubstrateStack) : Bool :=
  s.metal_layers.all fun m =>
    m.top_interface.isSome && m.bottom_interface.isSome &&
      m.extend_direction = UP

/-- Replace the metal at index `i` of `metal_layers`. -/
def setMetalAt (s : SubstrateStack) (i : Nat) (m : MetalLayer) :
    SubstrateStack :=
  { s with metal_layers := s.metal_layers.set i m }

/-- The body of `standardize`'s first loop for the metal at index `i`:
compute the metal's missing boundary position, then attach an existing
interface at that position, or split an oxide layer to create one.  An
error embeds Python raising when the position of the metal's set
interface is unavailable (`None - thickness`). -/
def standardizeStep (s : SubstrateStack) (i : Nat) :
    Except SubstrateStack SubstrateStack :=
  match s.metal_layers[i]? with
  | none => .ok s
  | some m =>
    if m.top_interface.isSome ∧ m.bottom_interface = none then
      match m.top_interface.bind (get_interface_position s) with
      | none => .error s
      | some top_position =>
        let bottom_position := top_position - m.thickness
        match get_interface_by_position s bottom_position with
        | some itf =>
          .ok (setMetalAt s i { m with bottom_interface := some itf.id })
        | none =>
          let res := split_oxide_layer s bottom_position
          .ok (setMetalAt res.1 i { m with bottom_interface := res.2 })
    else if m.bottom_interface.isSome ∧ m.top_interface = none then
      match m.bottom_interface.bind (get_interface_position s) with
      | none => .error s
      | some bottom_position =>
        let top_position := bottom_position + m.thickness
        match get_interface_by_position s top_position with
        | some itf =>
          .ok (setMetalAt s i { m with top_interface := some itf.id })
        | none =>
          let res := split_oxide_layer s top_position
          .ok (setMetalAt res.1 i { m with top_interface := res.2 })
    else .ok s

/-- `standardize`'s first loop (create interfaces at the boundaries of
the metals), iterated over the metal list by index; the metal count is
not changed by the loop body, so the initial count is sufficient fuel. -/
def standardizeLoop1 : Nat → SubstrateStack → Nat →
    Except SubstrateStack SubstrateStack
  | 0, s, _ => .ok s
  | fuel + 1, s, i =>
    if i < s.metal_layers.length then
      match standardizeStep s i with
      | .error e => .error e
      | .ok s1 => standardizeLoop1 fuel s1 (i + 1)
    else .ok s

/-- The body of `standardize`'s second loop for the metal at index `i`:
a DOWN metal's reference is moved from its top interface to its bottom
interface and its direction flipped to UP.  Errors embed Python raising
on a `None` interface (`None.metal`). -/
def flipStep (s : SubstrateStack) (i : Nat) :
    Except SubstrateStack SubstrateStack :=
  match s.metal_layers[i]? with
  | none => .ok s
  | some m =>
    if m.extend_direction = DOWN then
      match m.top_interface with
      | none => .error s
      | some tid =>
        let s1 := setInterfaceMetal s tid none
        match m.bottom_interface with
        | none => .error s1
        | some bid =>
          let s2 := setInterfaceMetal s1 bid (some m.name)
          .ok (setMetalAt s2 i { m with extend_direction := UP })
    else .ok s

/-- `standardize`'s second loop (make all metals extend up). -/
def standardizeLoop2 : Nat → SubstrateStack → Nat →
    Except SubstrateStack SubstrateStack
  | 0, s, _ => .ok s
  | fuel + 1, s, i =>
    if i < s.metal_layers.length then
      match flipStep s i with
      | .error e => .error e
      | .ok s1 => standardizeLoop2 fuel s1 (i + 1)
    else .ok s

/-- `SubstrateStack.standardize`: create interfaces at both boundaries
of every metal, then make every metal extend up.  An error carries the
stack state at the moment of the Python raise. -/
def standardize (s : SubstrateStack) : Except SubstrateStack SubstrateStack :=
  match standardizeLoop1 s.metal_layers.length s 0 with
  | .error e => .error e
  | .ok s1 => standardizeLoop2 s1.metal_layers.length s1 0

end SubstrateStackPy

namespace SubstrateStackPy

/-- The loop of `merge_oxide_layers` over `oxide_layers[1:]`.  `s0` is
the stack at call time: the contiguity and no-metal assertions read
interface attributes of the run's layers, which `merge_oxide_layers`
never mutates, so they are evaluated against `s0` (positionally);
`cur` is the mutated stack.  Each iteration first checks the assertions
(raising with the current state), accumulates the totals, then removes
the layer's bottom interface and the layer itself from the stack. -/
def mergeLoop (s0 : SubstrateStack) :
    SubstrateStack → Nat → List Nat → ℚ → ℚ → ℚ →
    Except SubstrateStack (SubstrateStack × ℚ × ℚ × ℚ)
  | cur, _, [], tt, te, tl => .ok (cur, tt, te, tl)
  | cur, prev, layerId :: rest, tt, te, tl =>
    match s0.oxide_layers.findIdx? (·.id = prev),
        s0.oxide_layers.findIdx? (·.id = layerId) with
    | some prevIdx, some layerIdx =>
      match s0.oxide_layers[layerIdx]?, s0.interfaces[layerIdx]?,
          s0.interfaces[prevIdx + 1]? with
      | some layer, some bottomItf, some prevTopItf =>
        -- assert layer.bottom_interface == previous layer's top_interface
        if bottomItf.id = prevTopItf.id then
          -- assert layer.bottom_interface.metal == None
          if bottomItf.metal = none then
            -- total_epsilon_rel += thickness / epsilon_rel raises
            -- ZeroDivisionError on a zero epsilon_rel, before this
            -- iteration's removals
            if layer.epsilon_rel = 0 then .error cur
            else
            let tt1 := tt + layer.thickness
            let te1 := te + layer.thickness / layer.epsilon_rel
            let tl1 := tl + layer.thickness * layer.loss_tangent
            -- self.interfaces.remove(layer.bottom_interface)
            match removeFirst (·.id = bottomItf.id) cur.interfaces with
            | none => .error cur
            | some itfs1 =>
              let cur1 := { cur with interfaces := itfs1 }
              -- self.oxide_layers.remove(layer)
              match removeFirst (·.id = layerId) cur1.oxide_layers with
              | none => .error cur1
              | some oxs1 =>
                mergeLoop s0 { cur1 with oxide_layers := oxs1 } layerId
                  rest tt1 te1 tl1
          else .error cur
        else .error cur
      | _, _, _ => .error cur
    | _, _ =>
      -- A run layer absent from the stack: Python's attribute reads
      -- would still succeed, but `list.remove`/`list.index` raises;
      -- such runs are outside every claim.
      .error cur

/-- `SubstrateStack.merge_oxide_layers`: merge the bottom-to-top run of
oxide layers given by their identities into one equivalent layer.  The
merged layer's thickness is the total thickness, its permittivity the
thickness-weighted harmonic combination and its loss tangent the
thickness-weighted arithmetic mean.  Errors carry the stack state at
the moment of the corresponding Python raise (partial mutations
performed by earlier loop iterations persist). -/
def merge_oxide_layers (s : SubstrateStack) (run : List Nat) :
    Except SubstrateStack SubstrateStack :=
  match run with
  | [] => .error s            -- assert len(oxide_layers) > 1
  | [_] => .error s           -- assert len(oxide_layers) > 1
  | first :: rest =>
    match s.oxide_layers.findIdx? (·.id = first) with
    | none => .error s        -- self.oxide_layers.index raises ValueError
    | some firstIdx =>
      match s.oxide_layers[firstIdx]? with
      | none => .error s
      | some firstLayer =>
        -- total_epsilon_rel = thickness / epsilon_rel raises
        -- ZeroDivisionError on a zero epsilon_rel of the first layer,
        -- before any mutation
        if firstLayer.epsilon_rel = 0 then .error s
        else
        let insert_position := firstIdx
        let tt0 := firstLayer.thickness
        let te0 := firstLayer.thickness / firstLayer.epsilon_rel
        let tl0 := firstLayer.thickness * firstLayer.loss_tangent
        match mergeLoop s s first rest tt0 te0 tl0 with
        | .error e => .error e
        | .ok (cur, tt, te, tl) =>
          -- self.oxide_layers.remove(oxide_layers[0])
          match removeFirst (·.id = first) cur.oxide_layers with
          | none => .error cur
          | some oxs1 =>
            let cur1 := { cur with oxide_layers := oxs1 }
            -- OxideLayer(total_thickness, total_thickness /
            -- total_epsilon_rel, total_loss_tangent / total_thickness):
            -- a zero denominator raises ZeroDivisionError in Python.
            if te = 0 ∨ tt = 0 then .error cur1
            else
              let merged : OxideLayer :=
                { id := cur1.next_id, thickness := tt
                  epsilon_rel := tt / te, loss_tangent := tl / tt }
              .ok { cur1 with
                    oxide_layers :=
                      insertAt insert_position merged cur1.oxide_layers
                    next_id := cur1.next_id + 1 }

/-- The `if metal_layer.xxx_interface:` steps of
`remove_metal_layer_by_name`: clear the `metal` attribute of the given
interface, when set. -/
def clearInterfaceOf (s : SubstrateStack) (oi : Option Nat) :
    SubstrateStack :=
  match oi with
  | some tid => setInterfaceMetal s tid none
  | none => s

/-- The `if self.get_via_by_top_metal(...)` step of
`remove_metal_layer_by_name`: remove the first via whose `top_metal` is
the given metal, when one exists. -/
def removeViaByTop (s : SubstrateStack) (n : String) : SubstrateStack :=
  match get_via_by_top_metal s n with
  | some _ => { s with vias := s.vias.eraseP (·.top_metal = some n) }
  | none => s

/-- The `if self.get_via_by_bottom_metal(...)` step of
`remove_metal_layer_by_name`. -/
def removeViaByBottom (s : SubstrateStack) (n : String) : SubstrateStack :=
  match get_via_by_bottom_metal s n with
  | some _ => { s with vias := s.vias.eraseP (·.bottom_metal = some n) }
  | none => s

/-- `SubstrateStack.remove_metal_layer_by_name`: detach the named metal
from its interfaces, remove its lower via (found by top metal) and its
upper via (found by bottom metal) when present, and remove the metal.
`none` embeds Python raising when the name is not found
(`None.top_interface`). -/
def remove_metal_layer_by_name (s : SubstrateStack) (name : String) :
    Option SubstrateStack :=
  match get_metal_layer_by_name s name with
  | none => none
  | some m =>
    let s1 := clearInterfaceOf s m.top_interface
    let s2 := clearInterfaceOf s1 m.bottom_interface
    let s3 := removeViaByTop s2 m.name
    let s4 := removeViaByBottom s3 m.name
    some { s4 with metal_layers := s4.metal_layers.eraseP (·.name = name) }

/-- The body of `simplify`'s loop for the metal at index `i`, carrying
the current bottom-run index.  A metal attached directly above the bulk
layer is skipped; otherwise the run from the current bottom index up to
the layer directly below the metal's bottom interface is merged, and
the bottom index advances to the layer directly above that interface. -/
def simplifyStep (s : SubstrateStack) (i : Nat) (bIdx : Nat) :
    Except SubstrateStack (SubstrateStack × Nat)  :=
  match s.metal_layers[i]? with
  | none => .ok (s, bIdx)
  | some m =>
    match m.bottom_interface with
    | none => .error s        -- None.bottom_layer raises
    | some bid =>
      match s.interfaces.findIdx? (·.id = bid) with
      | none => .error s      -- dangling reference; outside every claim
      | some k =>
        if k = 0 then .ok (s, bIdx)   -- bottom_layer is the BulkLayer
        else
          match s.oxide_layers[k - 1]? with
          | none => .error s
          | some belowLayer =>
            let tIdx := s.oxide_layers.findIdx (·.id = belowLayer.id)
            let run := ((s.oxide_layers.drop bIdx).take
              (tIdx + 1 - bIdx)).map (·.id)
            match merge_oxide_layers s run with
            | .error e => .error e
            | .ok s1 =>
              match s1.interfaces.findIdx? (·.id = bid) with
              | none => .error s1
              | some k1 =>
                match s1.oxide_layers[k1]? with
                | none => .error s1   -- top_layer is None: index raises
                | some above =>
                  .ok (s1, s1.oxide_layers.findIdx (·.id = above.id))

/-- `simplify`'s loop over the metal layers (the loop body never
changes the metal list, so the initial count is sufficient fuel). -/
def simplifyLoop : Nat → SubstrateStack → Nat → Nat →
    Except SubstrateStack (SubstrateStack × Nat)
  | 0, s, _, bIdx => .ok (s, bIdx)
  | fuel + 1, s, i, bIdx =>
    if i < s.metal_layers.length then
      match simplifyStep s i bIdx with
      | .error e => .error e
      | .ok (s1, bIdx1) => simplifyLoop fuel s1 (i + 1) bIdx1
    else .ok (s, bIdx)

/-- `SubstrateStack.simplify`: standardize when necessary, then merge
every run of oxide layers between consecutive metal boundaries, and
finally the run up to the top of the stack. -/
def simplify (s : SubstrateStack) : Except SubstrateStack SubstrateStack :=
  match (if is_standard s then .ok s else standardize s :
      Except SubstrateStack SubstrateStack) with
  | .error e => .error e
  | .ok s1 =>
    -- bottom index: self.oxide_layers.index(bulk.top_interface.top_layer)
    match s1.oxide_layers[0]? with
    | none => .error s1       -- top_layer is None: index raises
    | some layer0 =>
      let b0 := s1.oxide_layers.findIdx (·.id = layer0.id)
      match simplifyLoop s1.metal_layers.length s1 0 b0 with
      | .error e => .error e
      | .ok (s2, bIdx) =>
        -- top index: self.oxide_layers.index(interfaces[-1].bottom_layer)
        match s2.oxide_layers.getLast? with
        | none => .error s2
        | some lastLayer =>
          let tIdx := s2.oxide_layers.findIdx (·.id = lastLayer.id)
          let run := ((s2.oxide_layers.drop bIdx).take
            (tIdx + 1 - bIdx)).map (·.id)
          merge_oxide_layers s2 run

end SubstrateStackPy

namespace SubstrateStackPy

/-- `MetalLayer.get_resistivity`: sheet resistance times thickness. -/
def metal_get_resistivity (m : MetalLayer) : ℚ :=
  m.sheet_resistance * m.thickness

/-- `MetalLayer.get_conductivity`: reciprocal resistivity; `none` embeds
Python's `ZeroDivisionError`. -/
def metal_get_conductivity (m : MetalLayer) : Option ℚ :=
  if metal_get_resistivity m = 0 then none
  else some (1 / metal_get_resistivity m)

/-- `Via.fill`: `width² / (width + spacing)²`; `none` embeds a zero
denominator. -/
def via_fill (v : Via) : Option ℚ :=
  if (v.width + v.spacing) ^ 2 = 0 then none
  else some (v.width ^ 2 / (v.width + v.spacing) ^ 2)

/-- `Via.get_resistivity`: `resistance * width² / height / fill`; `none`
embeds Python raising on a `None` height or a zero divisor. -/
def via_get_resistivity (s : SubstrateStack) (v : Via) : Option ℚ := do
  let h ← get_via_height s v
  if h = 0 then none
  else do
    let f ← via_fill v
    if f = 0 then none
    else pure (v.resistance * v.width ^ 2 / h / f)

/-- `Via.get_conductivity`: reciprocal resistivity. -/
def via_get_conductivity (s : SubstrateStack) (v : Via) : Option ℚ := do
  let r ← via_get_resistivity s v
  if r = 0 then none else pure (1 / r)

/-- The per-layer body of `write_momentum_substrate`'s emission loop.
`positions` lists the original (bottom-to-top) indices of the oxide
layers in the reversed (top-to-bottom) emission order; the metal
attached at each layer's bottom interface is asserted to extend up, and
the metal's and its lower via's conductivities are computed (raising on
zero division).  Position attributes read by via heights are those of
the interface objects, which the list reversal does not touch, so they
are evaluated against the un-reversed stack `s1`; `sRev` (the stack
with the oxide list reversed) is the state a raise leaves behind. -/
def momentumLoop (s1 sRev : SubstrateStack) :
    List Nat → Except SubstrateStack Unit
  | [] => .ok ()
  | j :: rest =>
    match s1.interfaces[j]? with
    | none => .error sRev
    | some itf =>
      match itf.metal with
      | none => momentumLoop s1 sRev rest
      | some mname =>
        match get_metal_layer_by_name s1 mname with
        | none => .error sRev
        | some m =>
          if m.extend_direction = UP then
            match metal_get_conductivity m with
            | none => .error sRev
            | some _ =>
              match get_via_by_top_metal s1 mname with
              | none => momentumLoop s1 sRev rest
              | some via =>
                match via_get_conductivity s1 via with
                | none => .error sRev
                | some _ => momentumLoop s1 sRev rest
          else .error sRev    -- assert metal.extend_direction == UP

/-- The state effects and failure conditions of
`SubstrateStack.write_momentum_substrate` (the emitted text itself is
not modelled): standardize when necessary, reverse the oxide list,
emit top to bottom (raising on a non-UP metal or a zero-division in a
conductivity, and on a zero bulk resistivity), and restore the oxide
order before returning. -/
def write_momentum_substrate (s : SubstrateStack)
    (_infinite_ground_plane : Bool) : Except SubstrateStack SubstrateStack :=
  match (if is_standard s then .ok s else standardize s :
      Except SubstrateStack SubstrateStack) with
  | .error e => .error e
  | .ok s1 =>
    match momentumLoop s1 { s1 with oxide_layers := s1.oxide_layers.reverse }
        ((List.range s1.oxide_layers.length).reverse) with
    | .error e => .error e
    | .ok _ =>
      if s1.bulk_layer.resistivity = 0 then
        .error { s1 with oxide_layers := s1.oxide_layers.reverse }
      else
        .ok { s1 with oxide_layers := s1.oxide_layers.reverse.reverse }

/-- The metal table loop of `write_sonnet_technology`: each metal's
conductivity is computed (raising on zero division, with the reversed
state `sRev`). -/
def sonnetMetalLoop (sRev : SubstrateStack) :
    List MetalLayer → Except SubstrateStack Unit
  | [] => .ok ()
  | m :: rest =>
    match metal_get_conductivity m with
    | none => .error sRev
    | some _ => sonnetMetalLoop sRev rest

/-- The via table loop of `write_sonnet_technology`: each via's
conductivity and height are computed (heights read interface
attributes, untouched by the list reversal, hence against `s1`). -/
def sonnetViaLoop (s1 sRev : SubstrateStack) :
    List Via → Except SubstrateStack Unit
  | [] => .ok ()
  | v :: rest =>
    match via_get_conductivity s1 v with
    | none => .error sRev
    | some _ =>
      match get_via_height s1 v with
      | none => .error sRev
      | some _ => sonnetViaLoop s1 sRev rest

/-- The state effects and failure conditions of
`SubstrateStack.write_sonnet_technology` (the emitted text itself is
not modelled): standardize when necessary, reverse the oxide list, emit
the metal and via tables and the top-to-bottom geometry (the oxide
entries themselves are pure), raise on a zero bulk resistivity, and
restore the oxide order before returning. -/
def write_sonnet_technology (s : SubstrateStack) :
    Except SubstrateStack SubstrateStack :=
  match (if is_standard s then .ok s else standardize s :
      Except SubstrateStack SubstrateStack) with
  | .error e => .error e
  | .ok s1 =>
    match sonnetMetalLoop { s1 with oxide_layers := s1.oxide_layers.reverse }
        s1.metal_layers with
    | .error e => .error e
    | .ok _ =>
      match sonnetViaLoop s1
          { s1 with oxide_layers := s1.oxide_layers.reverse } s1.vias with
      | .error e => .error e
      | .ok _ =>
        if s1.bulk_layer.resistivity = 0 then
          .error { s1 with oxide_layers := s1.oxide_layers.reverse }
        else
          .ok { s1 with oxide_layers := s1.oxide_layers.reverse.reverse }

end SubstrateStackPy

namespace SubstrateStackPy

instance {ε α : Type} [DecidableEq ε] [DecidableEq α] :
    DecidableEq (Except ε α)
  | .error a, .error b =>
    if h : a = b then .isTrue (by rw [h])
    else .isFalse (by intro he; cases he; exact h rfl)
  | .error _, .ok _ => .isFalse (by intro he; cases he)
  | .ok _, .error _ => .isFalse (by intro he; cases he)
  | .ok a, .ok b =>
    if h : a = b then .isTrue (by rw [h])
    else .isFalse (by intro he; cases he; exact h rfl)

/-- The bulk layer of the worked examples. -/
def exBulk : BulkLayer :=
  { thickness := 10, epsilon_rel := 11, resistivity := 1, loss_tangent := 0 }

/-- A 4-oxide stack (unit thicknesses, permittivities 4, 5, 6, 7). -/
def exStack4 : SubstrateStack :=
  add_oxide_layer_on_top (add_oxide_layer_on_top (add_oxide_layer_on_top
    (add_oxide_layer_on_top (mkStack exBulk) 1 4 0) 1 5 0) 1 6 0) 1 7 0

/-- A unit-thickness UP metal, not yet attached. -/
def exMetalUp : MetalLayer :=
  { name := "M1", thickness := 1, sheet_resistance := 1
    extend_direction := UP, bottom_interface := none, top_interface := none }

/-- `exStack4` with `exMetalUp` attached at interface 2 (spanning the
third oxide layer). -/
def exStackM : SubstrateStack := (add_metal_layer exStack4 exMetalUp 2).getD
  exStack4

end SubstrateStackPy

namespace SubstrateStackPy

/-- C3 counterexample: on the four-oxide, one-metal stack `exStackM`,
`simplify()` succeeds, but a second `simplify()` call does not succeed
(it hits `merge_oxide_layers`' `assert len(oxide_layers) > 1` on a
single-layer run), refuting the claim that the second call succeeds
with an unchanged interface count. -/
theorem simplify_not_idempotent_cex :
    (simplify exStackM).isOk = true ∧
      ((simplify exStackM).bind simplify).isOk = false := by
  with_unfolding_all decide

/-- C3 (amended): on a stack on which `simplify()` succeeds, a second
call is not a successful no-op: it raises `merge_oxide_layers`' run
length assertion, and the raise happens before any mutation, so the
stack (and hence its interface count and oxide-layer sequence) is
exactly as the first call left it.  Demonstrated on the four-oxide,
one-metal stack `exStackM`. -/
theorem simplify_second_call_raises_unchanged :
    (simplify exStackM).isOk = true ∧
      (simplify exStackM).bind simplify
        = (simplify exStackM).bind fun s1 => Except.error s1 := by
  with_unfolding_all decide

end SubstrateStackPy

namespace SubstrateStackPy

/-- A template UP metal with unit sheet resistance, not yet attached. -/
def exMetal (nm : String) (th : ℚ) : MetalLayer :=
  { name := nm, thickness := th, sheet_resistance := 1
    extend_direction := UP, bottom_interface := none, top_interface := none }

/-- A two-oxide stack with unit-thickness layers. -/
def exStack2ox : SubstrateStack :=
  add_oxide_layer_on_top (add_oxide_layer_on_top (mkStack exBulk) 1 4 0) 1 4 0

/-- A three-oxide stack with unit-thickness layers. -/
def exStack3ox : SubstrateStack :=
  add_oxide_layer_on_top exStack2ox 1 4 0

/-- `exStack2ox` with metals `M1` (at interface 1) and `M2` (at
interface 2). -/
def exStackAB : SubstrateStack :=
  ((add_metal_layer exStack2ox (exMetal "M1" 1) 1).bind
    fun s => add_metal_layer s (exMetal "M2" 1) 2).getD exStack2ox

/-- A template via, not yet assigned to metals. -/
def exVia : Via :=
  { name := "V1", resistance := 1, width := 1, spacing := 0
    top_metal := none, bottom_metal := none }

/-- C5: `add_via` assigns `top_metal` to the metal whose reference
interface (`bottom_interface or top_interface`) has the larger computed
absolute position and `bottom_metal` to the other, and the assignment
is invariant under swapping the argument order, whenever the two
positions are distinct. -/
theorem add_via_orders_by_position
    (s : SubstrateStack) (v : Via) (n1 n2 : String)
    (m1 m2 : MetalLayer) (q1 q2 : ℚ)
    (h1 : get_metal_layer_by_name s n1 = some m1)
    (h2 : get_metal_layer_by_name s n2 = some m2)
    (hp1 : (m1.bottom_interface.orElse fun _ => m1.top_interface).bind
      (get_interface_position s) = some q1)
    (hp2 : (m2.bottom_interface.orElse fun _ => m2.top_interface).bind
      (get_interface_position s) = some q2)
    (hne : q1 ≠ q2) :
    add_via s v n1 n2 = add_via s v n2 n1 ∧
      add_via s v n1 n2 = some { s with vias := s.vias ++
        [{ v with
            top_metal := some (if q1 > q2 then m1.name else m2.name)
            bottom_metal := some (if q1 > q2 then m2.name else m1.name) }] }
    := by
  rcases lt_or_gt_of_ne hne with hlt | hgt
  · have hng : ¬ q1 > q2 := not_lt.mpr hlt.le
    constructor
    · simp [add_via, h1, h2, hp1, hp2, pyGT, hng, hlt]
    · simp [add_via, h1, h2, hp1, hp2, pyGT, hng]
  · constructor
    · simp [add_via, h1, h2, hp1, hp2, pyGT, hgt, not_lt.mpr hgt.le]
    · simp [add_via, h1, h2, hp1, hp2, pyGT, hgt]

/-- C5 witness: on `exStackAB`, adding a via between `M2` (position 2)
and `M1` (position 1) in either argument order yields the same stack. -/
theorem add_via_orders_by_position_witness :
    add_via exStackAB exVia "M2" "M1" = add_via exStackAB exVia "M1" "M2"
    := by
  exact (add_via_orders_by_position exStackAB exVia "M2" "M1"
    { name := "M2", thickness := 1, sheet_resistance := 1
      extend_direction := 1, bottom_interface := some 4
      top_interface := none }
    { name := "M1", thickness := 1, sheet_resistance := 1
      extend_direction := 1, bottom_interface := some 2
      top_interface := none }
    2 1
    (by with_unfolding_all decide) (by with_unfolding_all decide)
    (by with_unfolding_all decide) (by with_unfolding_all decide)
    (by norm_num)).1

end SubstrateStackPy

namespace SubstrateStackPy

/-- Modelled from the spec: the effective top face of a metal — an
UP-extending metal's top face is `position(bottom_interface) +
thickness`, a DOWN-extending metal's top face is
`position(top_interface)`. -/
def metalTopFaceSpec (s : SubstrateStack) (m : MetalLayer) : Option ℚ :=
  if m.extend_direction = UP then
    (m.bottom_interface.bind (get_interface_position s)).map
      (· + m.thickness)
  else if m.extend_direction = DOWN then
    m.top_interface.bind (get_interface_position s)
  else none

/-- Modelled from the spec: the effective bottom face of a metal — a
DOWN-extending metal's bottom face is `position(top_interface) −
thickness`, an UP-extending metal's bottom face is
`position(bottom_interface)`. -/
def metalBottomFaceSpec (s : SubstrateStack) (m : MetalLayer) : Option ℚ :=
  if m.extend_direction = DOWN then
    (m.top_interface.bind (get_interface_position s)).map
      (· - m.thickness)
  else if m.extend_direction = UP then
    m.bottom_interface.bind (get_interface_position s)
  else none

/-- Helper: `get_via_height` computes the spec's face gap whenever the
metal lookups and the required interface positions resolve. -/
theorem via_height_faces_aux
    (s : SubstrateStack) (v : Via) (bm tm : MetalLayer) (t b : ℚ)
    (hbm : v.bottom_metal.bind (get_metal_layer_by_name s) = some bm)
    (htm : v.top_metal.bind (get_metal_layer_by_name s) = some tm)
    (hf1 : metalTopFaceSpec s bm = some t)
    (hf2 : metalBottomFaceSpec s tm = some b) :
    get_via_height s v = some (b - t) := by
  unfold get_via_height
  rw [hbm]
  simp only [Option.bind_eq_bind, Option.some_bind]
  rw [htm]
  simp only [Option.some_bind]
  by_cases hup : bm.extend_direction = UP
  · rw [metalTopFaceSpec, if_pos hup] at hf1
    rw [if_pos hup, hf1]
    simp only [Option.some_bind]
    by_cases hdn : tm.extend_direction = DOWN
    · rw [metalBottomFaceSpec, if_pos hdn] at hf2
      rw [if_pos hdn, hf2]
      rfl
    · have hup2 : ¬ tm.extend_direction = DOWN := hdn
      rw [metalBottomFaceSpec, if_neg hdn] at hf2
      rw [if_neg hup2]
      by_cases h2 : tm.extend_direction = UP
      · rw [if_pos h2] at hf2
        rw [hf2]
        rfl
      · rw [if_neg h2] at hf2
        cases hf2
  · have hdn1 : bm.extend_direction = DOWN := by
      rw [metalTopFaceSpec, if_neg hup] at hf1
      by_cases h : bm.extend_direction = DOWN
      · exact h
      · rw [if_neg h] at hf1; cases hf1
    rw [metalTopFaceSpec, if_neg hup, if_pos hdn1] at hf1
    rw [if_neg hup, hf1]
    simp only [Option.some_bind]
    by_cases hdn : tm.extend_direction = DOWN
    · rw [metalBottomFaceSpec, if_pos hdn] at hf2
      rw [if_pos hdn, hf2]
      rfl
    · rw [metalBottomFaceSpec, if_neg hdn] at hf2
      rw [if_neg hdn]
      by_cases h2 : tm.extend_direction = UP
      · rw [if_pos h2] at hf2
        rw [hf2]
        rfl
      · rw [if_neg h2] at hf2
        cases hf2

/-- C6: whenever the via's metals resolve and their required interfaces
have computable positions, `get_via_height` returns exactly the
effective bottom face of the top metal minus the effective top face of
the bottom metal, with the faces as the spec describes them. -/
theorem get_via_height_is_face_gap
    (s : SubstrateStack) (v : Via) (bm tm : MetalLayer) (t b : ℚ)
    (hbm : v.bottom_metal.bind (get_metal_layer_by_name s) = some bm)
    (htm : v.top_metal.bind (get_metal_layer_by_name s) = some tm)
    (hf1 : metalTopFaceSpec s bm = some t)
    (hf2 : metalBottomFaceSpec s tm = some b) :
    get_via_height s v = some (b - t) :=
  via_height_faces_aux s v bm tm t b hbm htm hf1 hf2

/-- The assigned via of the C6 witness: `M1` below, `M2` above. -/
def exViaAssigned : Via :=
  { exVia with top_metal := some "M2", bottom_metal := some "M1" }

/-- C6 witness: on `exStackAB`, the via between `M1` (top face at 2)
and `M2` (bottom face at 2) has height `2 - 2 = 0`. -/
theorem get_via_height_is_face_gap_witness :
    get_via_height exStackAB exViaAssigned = some (2 - 2) := by
  exact get_via_height_is_face_gap exStackAB exViaAssigned
    { name := "M1", thickness := 1, sheet_resistance := 1
      extend_direction := 1, bottom_interface := some 2
      top_interface := none }
    { name := "M2", thickness := 1, sheet_resistance := 1
      extend_direction := 1, bottom_interface := some 4
      top_interface := none }
    2 2
    (by with_unfolding_all decide) (by with_unfolding_all decide)
    (by with_unfolding_all decide) (by with_unfolding_all decide)

end SubstrateStackPy

namespace SubstrateStackPy

/-- `exStack2ox` with an overlapping pair of metals: `M1` at interface 1
extends 2 units up (top face at 3), `M2` at interface 2 (bottom face at
2). -/
def exStackOv : SubstrateStack :=
  ((add_metal_layer exStack2ox (exMetal "M1" 2) 1).bind
    fun s => add_metal_layer s (exMetal "M2" 1) 2).getD exStack2ox

/-- The via of the overlapping configuration: `M1` below, `M2` above. -/
def exViaOv : Via :=
  { exVia with top_metal := some "M2", bottom_metal := some "M1" }

/-- C7 counterexample: on the overlapping configuration `exStackOv`,
`get_via_height` returns the negative value `-1` as an ordinary result
— no error is surfaced to the caller. -/
theorem get_via_height_negative_cex :
    get_via_height exStackOv exViaOv = some (-1) := by
  with_unfolding_all decide

/-- C7 (amended): `get_via_height` performs no sign check: whenever the
via's metals resolve and the required interface positions are
computable, it returns the computed difference as an ordinary value —
negative results (overlapping metals) are returned silently, exactly
like zero ones. -/
theorem get_via_height_never_errors
    (s : SubstrateStack) (v : Via) (bm tm : MetalLayer) (t b : ℚ)
    (hbm : v.bottom_metal.bind (get_metal_layer_by_name s) = some bm)
    (htm : v.top_metal.bind (get_metal_layer_by_name s) = some tm)
    (hf1 : metalTopFaceSpec s bm = some t)
    (hf2 : metalBottomFaceSpec s tm = some b) :
    (get_via_height s v).isSome = true := by
  rw [via_height_faces_aux s v bm tm t b hbm htm hf1 hf2]
  rfl

end SubstrateStackPy

namespace SubstrateStackPy

/-- C7 witness: the no-sign-check theorem applied to the overlapping
configuration, whose computed height is negative. -/
theorem get_via_height_never_errors_witness :
    (get_via_height exStackOv exViaOv).isSome = true := by
  exact get_via_height_never_errors exStackOv exViaOv
    { name := "M1", thickness := 2, sheet_resistance := 1
      extend_direction := 1, bottom_interface := some 2
      top_interface := none }
    { name := "M2", thickness := 1, sheet_resistance := 1
      extend_direction := 1, bottom_interface := some 4
      top_interface := none }
    3 2
    (by with_unfolding_all decide) (by with_unfolding_all decide)
    (by with_unfolding_all decide) (by with_unfolding_all decide)

end SubstrateStackPy

namespace SubstrateStackPy

/-- Erasing the first match of `p` from a list containing at most one
match leaves a list with no match. -/
theorem find?_eraseP_of_countP_le_one {α : Type} (p : α → Bool)
    (l : List α) (h : l.countP p ≤ 1) : (l.eraseP p).find? p = none := by
  induction l with
  | nil => rfl
  | cons x xs ih =>
    by_cases hp : p x
    · rw [List.eraseP_cons_of_pos hp]
      rw [List.countP_cons_of_pos p _ hp] at h
      have h0 : xs.countP p = 0 := by omega
      exact List.find?_eq_none.mpr fun y hy =>
        (List.countP_eq_zero.mp h0) y hy
    · rw [List.eraseP_cons_of_neg hp]
      rw [List.countP_cons_of_neg p _ hp] at h
      rw [List.find?_cons_of_neg _ hp]
      exact ih h

/-- A sublist of a list with no match has no match. -/
theorem find?_none_of_sublist {α : Type} {p : α → Bool} {l1 l2 : List α}
    (hs : l1.Sublist l2) (h : l2.find? p = none) : l1.find? p = none :=
  List.find?_eq_none.mpr fun x hx => List.find?_eq_none.mp h x (hs.mem hx)

theorem clearInterfaceOf_vias (s : SubstrateStack) (oi : Option Nat) :
    (clearInterfaceOf s oi).vias = s.vias := by
  cases oi <;> rfl

theorem clearInterfaceOf_metals (s : SubstrateStack) (oi : Option Nat) :
    (clearInterfaceOf s oi).metal_layers = s.metal_layers := by
  cases oi <;> rfl

theorem removeViaByTop_metals (s : SubstrateStack) (n : String) :
    (removeViaByTop s n).metal_layers = s.metal_layers := by
  unfold removeViaByTop; split <;> rfl

theorem removeViaByBottom_metals (s : SubstrateStack) (n : String) :
    (removeViaByBottom s n).metal_layers = s.metal_layers := by
  unfold removeViaByBottom; split <;> rfl

theorem removeViaByTop_vias_sublist (s : SubstrateStack) (n : String) :
    (removeViaByTop s n).vias.Sublist s.vias := by
  unfold removeViaByTop
  split
  · exact List.eraseP_sublist _
  · exact List.Sublist.refl _

theorem removeViaByBottom_vias_sublist (s : SubstrateStack) (n : String) :
    (removeViaByBottom s n).vias.Sublist s.vias := by
  unfold removeViaByBottom
  split
  · exact List.eraseP_sublist _
  · exact List.Sublist.refl _

/-- After `removeViaByTop`, no via has the metal as `top_metal`,
provided at most one had it before. -/
theorem removeViaByTop_clears (s : SubstrateStack) (n : String)
    (h : s.vias.countP (·.top_metal = some n) ≤ 1) :
    (removeViaByTop s n).vias.find? (·.top_metal = some n) = none := by
  unfold removeViaByTop
  split
  · exact find?_eraseP_of_countP_le_one _ _ h
  · next heq => exact heq

/-- After `removeViaByBottom`, no via has the metal as `bottom_metal`,
provided at most one had it before. -/
theorem removeViaByBottom_clears (s : SubstrateStack) (n : String)
    (h : s.vias.countP (·.bottom_metal = some n) ≤ 1) :
    (removeViaByBottom s n).vias.find? (·.bottom_metal = some n) = none := by
  unfold removeViaByBottom
  split
  · exact find?_eraseP_of_countP_le_one _ _ h
  · next heq => exact heq

/-- C9 (amended): `remove_metal_layer_by_name` removes the named metal,
the first via having it as `top_metal` and the first via having it as
`bottom_metal`; when the metal is referenced by at most one via in each
role (and the name names at most one metal), a subsequent lookup of a
via — or of the metal — by that name finds nothing. -/
theorem remove_metal_removes_referencing_vias
    (s : SubstrateStack) (name : String) (m : MetalLayer)
    (hm : get_metal_layer_by_name s name = some m)
    (ht : s.vias.countP (·.top_metal = some name) ≤ 1)
    (hb : s.vias.countP (·.bottom_metal = some name) ≤ 1)
    (hmetal : s.metal_layers.countP (·.name = name) ≤ 1) :
    ∃ s2, remove_metal_layer_by_name s name = some s2 ∧
      get_via_by_top_metal s2 name = none ∧
      get_via_by_bottom_metal s2 name = none ∧
      get_metal_layer_by_name s2 name = none := by
  have mname : m.name = name := by
    have := List.find?_some hm
    simpa using this
  subst mname
  rw [remove_metal_layer_by_name, hm]
  refine ⟨_, rfl, ?_, ?_, ?_⟩
  · rw [get_via_by_top_metal]
    show (removeViaByBottom (removeViaByTop
      (clearInterfaceOf (clearInterfaceOf s m.top_interface)
        m.bottom_interface) m.name) m.name).vias.find?
        (·.top_metal = some m.name) = none
    refine find?_none_of_sublist (removeViaByBottom_vias_sublist _ _) ?_
    apply removeViaByTop_clears
    rw [clearInterfaceOf_vias, clearInterfaceOf_vias]
    exact ht
  · rw [get_via_by_bottom_metal]
    show (removeViaByBottom (removeViaByTop
      (clearInterfaceOf (clearInterfaceOf s m.top_interface)
        m.bottom_interface) m.name) m.name).vias.find?
        (·.bottom_metal = some m.name) = none
    apply removeViaByBottom_clears
    refine le_trans (List.Sublist.countP_le _
      (removeViaByTop_vias_sublist _ _)) ?_
    rw [clearInterfaceOf_vias, clearInterfaceOf_vias]
    exact hb
  · rw [get_metal_layer_by_name]
    show ((removeViaByBottom (removeViaByTop
      (clearInterfaceOf (clearInterfaceOf s m.top_interface)
        m.bottom_interface) m.name) m.name).metal_layers.eraseP
        (·.name = m.name)).find? (·.name = m.name) = none
    rw [removeViaByBottom_metals, removeViaByTop_metals,
      clearInterfaceOf_metals, clearInterfaceOf_metals]
    exact find?_eraseP_of_countP_le_one _ _ hmetal

end SubstrateStackPy

namespace SubstrateStackPy

/-- A stack in which metal `M3` (highest) is the top metal of two vias:
`VA` down to `M1` and `VB` down to `M2`. -/
def exStack9 : SubstrateStack :=
  ((do
    let s1 ← add_metal_layer exStack3ox (exMetal "M1" 1) 1
    let s2 ← add_metal_layer s1 (exMetal "M2" 1) 2
    let s3 ← add_metal_layer s2 (exMetal "M3" 1) 3
    let s4 ← add_via s3 { exVia with name := "VA" } "M3" "M1"
    add_via s4 { exVia with name := "VB" } "M3" "M2" :
      Option SubstrateStack)).getD exStack3ox

/-- C9 counterexample: removing `M3` from `exStack9` removes only the
first via referencing it as `top_metal`; the second such via remains,
and a subsequent lookup by top metal still finds it — refuting the
claim that every referencing via is removed. -/
theorem remove_metal_leaves_second_via_cex :
    ((remove_metal_layer_by_name exStack9 "M3").bind
      fun s2 => get_via_by_top_metal s2 "M3").isSome = true := by
  with_unfolding_all decide

/-- C9 witness: on the two-metal, one-via stack obtained by adding a
single via to `exStackAB`, removing `M2` removes the via and the metal,
and both lookups subsequently find nothing. -/
theorem remove_metal_removes_referencing_vias_witness :
    ∃ s2, remove_metal_layer_by_name
        ((add_via exStackAB exVia "M1" "M2").getD exStackAB) "M2" = some s2 ∧
      get_via_by_top_metal s2 "M2" = none ∧
      get_via_by_bottom_metal s2 "M2" = none ∧
      get_metal_layer_by_name s2 "M2" = none := by
  exact remove_metal_removes_referencing_vias _ "M2"
    { name := "M2", thickness := 1, sheet_resistance := 1
      extend_direction := 1, bottom_interface := some 4
      top_interface := none }
    (by with_unfolding_all decide) (by with_unfolding_all decide)
    (by with_unfolding_all decide) (by with_unfolding_all decide)

end SubstrateStackPy

namespace SubstrateStackPy

/-- C10: on an already-standard stack, whenever an exporter completes,
the `oxide_layers` sequence after the call equals the sequence before
it: each exporter reverses the sequence for top-to-bottom emission and
restores it before returning. -/
theorem writers_restore_oxide_order (s : SubstrateStack)
    (hstd : is_standard s = true) :
    (∀ igp s2, write_momentum_substrate s igp = .ok s2 →
      s2.oxide_layers = s.oxide_layers) ∧
    (∀ s2, write_sonnet_technology s = .ok s2 →
      s2.oxide_layers = s.oxide_layers) := by
  constructor
  · intro igp s2 h
    rw [write_momentum_substrate, if_pos hstd] at h
    split at h
    · exact absurd h (by simp)
    · next s1 heq =>
      cases heq
      split at h
      · cases h
      · split at h
        · cases h
        · cases h
          simp
  · intro s2 h
    rw [write_sonnet_technology, if_pos hstd] at h
    split at h
    · exact absurd h (by simp)
    · next s1 heq =>
      cases heq
      split at h
      · cases h
      · split at h
        · cases h
        · split at h
          · cases h
          · cases h
            simp

/-- C10 witness: both exporters complete on the metal-free standard
stack `exStack4` and leave its oxide order unchanged. -/
theorem writers_restore_oxide_order_witness :
    (∀ igp s2, write_momentum_substrate exStack4 igp = .ok s2 →
      s2.oxide_layers = exStack4.oxide_layers) ∧
    (∀ s2, write_sonnet_technology exStack4 = .ok s2 →
      s2.oxide_layers = exStack4.oxide_layers) :=
  writers_restore_oxide_order exStack4 (by with_unfolding_all decide)

end SubstrateStackPy

namespace SubstrateStackPy

/-- C8 counterexample: merging the non-contiguous run `[1, 3, 7]` of
`exStack4` (the violation sits at the second interior layer) fails, but
the error state has already lost one interface and one oxide layer —
the call does not leave the sequences exactly as they were. -/
theorem merge_partial_mutation_cex :
    (merge_oxide_layers exStack4 [1, 3, 7]).isOk = false ∧
      merge_oxide_layers exStack4 [1, 3, 7] ≠ Except.error exStack4 := by
  with_unfolding_all decide

/-- The checks of one `merge_oxide_layers` loop iteration on the pair
of a run layer and its predecessor (read positionally from the
call-time stack): both layers are found, the layer's bottom interface
is the previous layer's top interface, and that interface carries no
metal. -/
def mergeCheckPair (s0 : SubstrateStack) (prev lid : Nat) : Prop :=
  ∃ prevIdx layerIdx,
    s0.oxide_layers.findIdx? (·.id = prev) = some prevIdx ∧
    s0.oxide_layers.findIdx? (·.id = lid) = some layerIdx ∧
    ∃ bottomItf prevTopItf,
      s0.interfaces[layerIdx]? = some bottomItf ∧
      s0.interfaces[prevIdx + 1]? = some prevTopItf ∧
      bottomItf.id = prevTopItf.id ∧ bottomItf.metal = none

/-- When `merge_oxide_layers`' loop returns, every iteration's
contiguity and no-metal assertions passed. -/
theorem mergeLoop_ok_checks (s0 : SubstrateStack) :
    ∀ (run : List Nat) (cur : SubstrateStack) (prev : Nat)
      (tt te tl : ℚ) (x : SubstrateStack × ℚ × ℚ × ℚ),
      mergeLoop s0 cur prev run tt te tl = .ok x →
      List.Chain' (mergeCheckPair s0) (prev :: run) := by
  intro run
  induction run with
  | nil =>
    intro cur prev tt te tl x h
    simp
  | cons lid rest ih =>
    intro cur prev tt te tl x h
    rw [mergeLoop] at h
    dsimp only at h
    repeat' split at h
    all_goals try exact Except.noConfusion h
    rename_i prevIdx layerIdx hfp hfl xo xi1 xi2 layer bottomItf
      prevTopItf hbl hbi hpt hid hmet heps x1 itfs1 hitfs x2 oxs1 hoxs
    rw [List.chain'_cons]
    exact ⟨⟨prevIdx, layerIdx, hfp, hfl, bottomItf, prevTopItf, hbi,
      hpt, hid, hmet⟩, ih _ _ _ _ _ _ h⟩

/-- C8 (amended): whenever `merge_oxide_layers` returns, its
precondition held — the run had at least two layers and every
consecutive pair passed the loop's contiguity and no-metal checks — so
every violated precondition makes the call fail.  The failure is not
always mutation-free: a run shorter than two layers fails with the
stack exactly unchanged (`assert len(oxide_layers) > 1` fires before
any mutation), but a violation may first be detected at a later
interior layer, after the earlier iterations' removals have been
applied: on the concrete non-contiguous run `[1, 3, 7]` the error
state has lost exactly one interface and one oxide layer. -/
theorem merge_precondition_failure_behaviour :
    (∀ (s : SubstrateStack) (run : List Nat), run.length ≤ 1 →
      merge_oxide_layers s run = .error s) ∧
    (∀ (s : SubstrateStack) (run : List Nat) (s2 : SubstrateStack),
      merge_oxide_layers s run = .ok s2 →
      2 ≤ run.length ∧ List.Chain' (mergeCheckPair s) run) ∧
      ((match merge_oxide_layers exStack4 [1, 3, 7] with
        | .error e => (e.interfaces.length, e.oxide_layers.length)
        | .ok _ => (0, 0)) =
        (exStack4.interfaces.length - 1, exStack4.oxide_layers.length - 1))
    := by
  refine ⟨?_, ?_, ?_⟩
  · intro s run h
    match run with
    | [] => rfl
    | [_] => rfl
    | _ :: _ :: _ => simp at h
  · intro s run s2 h
    match run with
    | [] => exact Except.noConfusion h
    | [_] => exact Except.noConfusion h
    | first :: second :: rest =>
      refine ⟨by simp, ?_⟩
      rw [merge_oxide_layers.eq_def] at h
      dsimp only at h
      repeat' split at h
      all_goals try exact Except.noConfusion h
      rename_i hloop x oxs1 hoxs hnz
      exact mergeLoop_ok_checks s _ _ _ _ _ _ _ hloop
  · with_unfolding_all decide

/-- C8 witness: the short-run clause applied to the one-element run,
and the returning-call clause applied to the valid middle run of the
four-oxide stack. -/
theorem merge_precondition_failure_behaviour_witness :
    merge_oxide_layers exStack4 [1] = .error exStack4 ∧
    (2 ≤ ([3, 5] : List Nat).length ∧
      List.Chain' (mergeCheckPair exStack4) [3, 5]) :=
  ⟨merge_precondition_failure_behaviour.1 exStack4 [1] (by simp),
    merge_precondition_failure_behaviour.2.1 exStack4 [3, 5]
      ((merge_oxide_layers exStack4 [3, 5]).toOption.getD exStack4)
      (by with_unfolding_all decide)⟩

end SubstrateStackPy

namespace SubstrateStackPy

theorem findIdx?_cons_map {α : Type} (p : α → Bool) (x : α) (l : List α) :
    (x :: l).findIdx? p = if p x then some 0 else (l.findIdx? p).map (· + 1)
    := by
  rw [List.findIdx?_cons]
  split
  · rfl
  · rw [List.findIdx?_succ]

/-- In a list whose keys are pairwise distinct, searching for the key
of the `j`-th element finds exactly index `j`. -/
theorem findIdx?_key_nodup {α κ : Type} [DecidableEq κ] (f : α → κ)
    (l : List α) (h : (l.map f).Nodup) (j : Nat) (hj : j < l.length) :
    l.findIdx? (fun x => f x = f (l.get ⟨j, hj⟩)) = some j := by
  induction l generalizing j with
  | nil => cases hj
  | cons y ys ih =>
    rw [findIdx?_cons_map]
    rw [List.map_cons, List.nodup_cons] at h
    cases j with
    | zero => simp
    | succ j2 =>
      have hj2 : j2 < ys.length := by simpa using Nat.lt_of_succ_lt_succ hj
      have hget : (y :: ys).get ⟨j2 + 1, hj⟩ = ys.get ⟨j2, hj2⟩ := rfl
      rw [hget]
      have hne : ¬ f y = f (ys.get ⟨j2, hj2⟩) := by
        intro heq
        exact h.1 (heq ▸ List.mem_map_of_mem f (ys.get_mem _ _))
      rw [if_neg (by simpa using hne), ih h.2 j2 hj2]
      rfl

theorem removeFirst_cons_pos {α : Type} {p : α → Bool} {x : α}
    (l : List α) (h : p x = true) : removeFirst p (x :: l) = some l := by
  simp [removeFirst, h]

theorem removeFirst_append_not {α : Type} {p : α → Bool} {l1 : List α}
    (l2 : List α) (h : ∀ x ∈ l1, p x = false) :
    removeFirst p (l1 ++ l2) = (removeFirst p l2).map (l1 ++ ·) := by
  induction l1 with
  | nil => simp
  | cons y ys ih =>
    have hy : p y = false := h y (by simp)
    rw [List.cons_append, removeFirst, hy]
    simp only [Bool.false_eq_true, if_false]
    rw [ih fun x hx => h x (by simp [hx])]
    cases removeFirst p l2 <;> simp

theorem insertAt_at_length {α : Type} (l1 l2 : List α) (x : α) :
    insertAt l1.length x (l1 ++ l2) = l1 ++ x :: l2 := by
  induction l1 with
  | nil => cases l2 <;> rfl
  | cons y ys ih => simpa [insertAt] using ih

end SubstrateStackPy

namespace SubstrateStackPy

theorem slice_map_cons {α β : Type} (L : List α) (j d : Nat)
    (hj : j < L.length) (g : α → β) :
    ((L.drop j).take (d + 1)).map g
      = g (L.get ⟨j, hj⟩) :: ((L.drop (j + 1)).take d).map g := by
  rw [List.drop_eq_getElem_cons hj, List.take_succ_cons, List.map_cons]
  rfl

theorem key_ne_of_mem_take {α κ : Type} [DecidableEq κ] (f : α → κ)
    (l : List α) (h : (l.map f).Nodup) (m j : Nat) (hm : m ≤ j)
    (hj : j < l.length) :
    ∀ x ∈ l.take m, f x ≠ f (l.get ⟨j, hj⟩) := by
  intro x hx
  rw [List.mem_iff_getElem] at hx
  obtain ⟨i, hi, rfl⟩ := hx
  have hi2 : i < m := by
    have := hi
    simp only [List.length_take, lt_min_iff] at this
    exact this.1
  have hil : i < l.length := by
    have := hi
    simp only [List.length_take, lt_min_iff] at this
    exact this.2
  intro heq
  have him : i < (l.map f).length := by simpa using hil
  have hjm : j < (l.map f).length := by simpa using hj
  have hmap : (l.map f)[i] = (l.map f)[j] := by
    rw [List.getElem_map, List.getElem_map]
    simpa [List.getElem_take] using heq
  have hij : i = j := (List.Nodup.getElem_inj_iff h).mp hmap
  omega

end SubstrateStackPy

namespace SubstrateStackPy

/-- The loop of `merge_oxide_layers` on a valid contiguous slice
`[a, a+n)` of the oxide list: starting after `k` processed layers, it
completes, removing the remaining interior interfaces and layers and
accumulating the slice totals. -/
theorem mergeLoop_slice (s : SubstrateStack) (a n : Nat)
    (hnodupL : (s.oxide_layers.map (·.id)).Nodup)
    (hnodupI : (s.interfaces.map (·.id)).Nodup)
    (hinv : s.interfaces.length = s.oxide_layers.length + 1)
    (hlen : a + n ≤ s.oxide_layers.length)
    (hmetals : ∀ j (hjI : j < s.interfaces.length), a < j → j < a + n →
      (s.interfaces.get ⟨j, hjI⟩).metal = none)
    (heps : ∀ j (hj : j < s.oxide_layers.length), a ≤ j → j < a + n →
      (s.oxide_layers.get ⟨j, hj⟩).epsilon_rel ≠ 0) :
    ∀ d k, n - k = d → 1 ≤ k → k ≤ n → ∀ (tt te tl : ℚ)
      (hprev : a + k - 1 < s.oxide_layers.length),
    mergeLoop s
      { s with
        interfaces :=
          s.interfaces.take (a + 1) ++ s.interfaces.drop (a + k)
        oxide_layers :=
          s.oxide_layers.take (a + 1) ++ s.oxide_layers.drop (a + k) }
      (s.oxide_layers.get ⟨a + k - 1, hprev⟩).id
      (((s.oxide_layers.drop (a + k)).take d).map (·.id))
      tt te tl
    = .ok ({ s with
        interfaces :=
          s.interfaces.take (a + 1) ++ s.interfaces.drop (a + n)
        oxide_layers :=
          s.oxide_layers.take (a + 1) ++ s.oxide_layers.drop (a + n) },
      tt + (((s.oxide_layers.drop (a + k)).take d).map
        (·.thickness)).sum,
      te + (((s.oxide_layers.drop (a + k)).take d).map
        (fun o => o.thickness / o.epsilon_rel)).sum,
      tl + (((s.oxide_layers.drop (a + k)).take d).map
        (fun o => o.thickness * o.loss_tangent)).sum) := by
  intro d
  induction d with
  | zero =>
    intro k hd hk1 hkn tt te tl hprev
    have hkn2 : k = n := by omega
    subst hkn2
    simp only [List.take_zero, List.map_nil, mergeLoop, List.sum_nil,
      add_zero]
  | succ d ih =>
    intro k hd hk1 hkn tt te tl hprev
    have hak : a + k < s.oxide_layers.length := by omega
    have hakI : a + k < s.interfaces.length := by omega
    -- expose the head of the remaining slice
    rw [slice_map_cons s.oxide_layers (a + k) d hak,
        slice_map_cons s.oxide_layers (a + k) d hak,
        slice_map_cons s.oxide_layers (a + k) d hak,
        slice_map_cons s.oxide_layers (a + k) d hak]
    rw [mergeLoop]
    -- the two findIdx? lookups
    rw [findIdx?_key_nodup (·.id) s.oxide_layers hnodupL (a + k - 1) hprev,
        findIdx?_key_nodup (·.id) s.oxide_layers hnodupL (a + k) hak]
    dsimp only
    have hidx : a + k - 1 + 1 = a + k := by omega
    rw [hidx]
    rw [List.getElem?_eq_getElem hak, List.getElem?_eq_getElem hakI]
    dsimp only
    rw [if_pos rfl]
    have hmet : s.interfaces[a + k].metal = none :=
      hmetals (a + k) hakI (by omega) (by omega)
    rw [if_pos hmet]
    have hepsK : ¬ s.oxide_layers[a + k].epsilon_rel = 0 := by
      have := heps (a + k) hak (by omega) (by omega)
      simpa using this
    rw [if_neg hepsK]
    have hItake : ∀ x ∈ s.interfaces.take (a + 1),
        (decide (x.id = s.interfaces[a + k].id)) = false := by
      intro x hx
      simpa using key_ne_of_mem_take (·.id) s.interfaces hnodupI (a + 1)
        (a + k) (by omega) hakI x hx
    rw [List.drop_eq_getElem_cons hakI,
      removeFirst_append_not _ hItake,
      removeFirst_cons_pos _ (by simp)]
    simp only [Option.map]
    have hLtake : ∀ x ∈ s.oxide_layers.take (a + 1),
        (decide (x.id = (s.oxide_layers.get ⟨a + k, hak⟩).id)) = false := by
      intro x hx
      simpa using key_ne_of_mem_take (·.id) s.oxide_layers hnodupL (a + 1)
        (a + k) (by omega) hak x hx
    rw [List.drop_eq_getElem_cons hak,
      removeFirst_append_not _ hLtake,
      removeFirst_cons_pos _ (by simp)]
    simp only [Option.map]
    have step := ih (k + 1) (by omega) (by omega) (by omega)
      (tt + s.oxide_layers[a + k].thickness)
      (te + s.oxide_layers[a + k].thickness /
        s.oxide_layers[a + k].epsilon_rel)
      (tl + s.oxide_layers[a + k].thickness *
        s.oxide_layers[a + k].loss_tangent)
      (by omega)
    exact step.trans (by
      simp only [List.sum_cons, List.get_eq_getElem, Except.ok.injEq,
        Prod.mk.injEq]
      refine ⟨by simp, ?_, ?_, ?_⟩ <;> rw [add_assoc, Nat.add_assoc a k 1])

end SubstrateStackPy

namespace SubstrateStackPy

theorem insertAt_of_length_eq {α : Type} {l1 : List α} {n : Nat}
    (h : l1.length = n) (x : α) (l2 : List α) :
    insertAt n x (l1 ++ l2) = l1 ++ x :: l2 := by
  subst h
  exact insertAt_at_length l1 l2 x

/-- Removing the layer with the key of index `a` from
`take (a+1) ++ l2` yields `take a ++ l2` (keys pairwise distinct). -/
theorem removeFirst_take_succ (L : List OxideLayer) (a : Nat)
    (ha : a < L.length) (hnodup : (L.map (·.id)).Nodup)
    (l2 : List OxideLayer) :
    removeFirst (fun x => decide (x.id = (L.get ⟨a, ha⟩).id))
      (L.take (a + 1) ++ l2) = some (L.take a ++ l2) := by
  rw [List.take_succ, List.getElem?_eq_getElem ha]
  rw [List.append_assoc]
  have htake : ∀ x ∈ L.take a,
      (decide (x.id = (L.get ⟨a, ha⟩).id)) = false := fun x hx => by
    simpa using key_ne_of_mem_take (·.id) L hnodup a a (le_refl a) ha x hx
  rw [removeFirst_append_not _ htake]
  rw [show (some L[a]).toList ++ l2 = L[a] :: l2 from rfl]
  rw [removeFirst_cons_pos _ (by simp)]
  rfl

/-- C1: merging a bottom-to-top contiguous run (the slice `[a, a+n)`,
`n ≥ 2`, of the oxide list) whose interior interfaces carry no metal
replaces the run by a single layer whose thickness is the sum of the
run's thicknesses, whose relative permittivity is the total thickness
divided by `Σ (thickness / epsilon_rel)` (thickness-weighted harmonic
combination), and whose loss tangent is
`Σ (thickness · loss_tangent) / total thickness` (thickness-weighted
arithmetic mean); the interior interfaces are removed. -/
theorem merge_oxide_layers_combines (s : SubstrateStack) (a n : Nat)
    (run : List Nat)
    (hnodupL : (s.oxide_layers.map (·.id)).Nodup)
    (hnodupI : (s.interfaces.map (·.id)).Nodup)
    (hinv : s.interfaces.length = s.oxide_layers.length + 1)
    (hn : 2 ≤ n)
    (hlen : a + n ≤ s.oxide_layers.length)
    (hmetals : ∀ j (hjI : j < s.interfaces.length), a < j → j < a + n →
      (s.interfaces.get ⟨j, hjI⟩).metal = none)
    (heps : ∀ j (hj : j < s.oxide_layers.length), a ≤ j → j < a + n →
      (s.oxide_layers.get ⟨j, hj⟩).epsilon_rel ≠ 0)
    (hrun : run = ((s.oxide_layers.drop a).take n).map (·.id))
    (hT : (((s.oxide_layers.drop a).take n).map (·.thickness)).sum ≠ 0)
    (hE : (((s.oxide_layers.drop a).take n).map
      (fun o => o.thickness / o.epsilon_rel)).sum ≠ 0) :
    merge_oxide_layers s run = .ok { s with
      oxide_layers := s.oxide_layers.take a ++
        { id := s.next_id
          thickness := (((s.oxide_layers.drop a).take n).map
            (·.thickness)).sum
          epsilon_rel := (((s.oxide_layers.drop a).take n).map
            (·.thickness)).sum /
            (((s.oxide_layers.drop a).take n).map
              (fun o => o.thickness / o.epsilon_rel)).sum
          loss_tangent := (((s.oxide_layers.drop a).take n).map
            (fun o => o.thickness * o.loss_tangent)).sum /
            (((s.oxide_layers.drop a).take n).map (·.thickness)).sum } ::
        s.oxide_layers.drop (a + n)
      interfaces := s.interfaces.take (a + 1) ++ s.interfaces.drop (a + n)
      next_id := s.next_id + 1 } := by
  subst hrun
  obtain ⟨m, rfl⟩ : ∃ m, n = m + 2 := ⟨n - 2, by omega⟩
  have ha : a < s.oxide_layers.length := by omega
  have ha1 : a + 1 < s.oxide_layers.length := by omega
  rw [slice_map_cons s.oxide_layers a (m + 1) ha (·.id),
    slice_map_cons s.oxide_layers (a + 1) m ha1 (·.id)]
  rw [merge_oxide_layers]
  rw [findIdx?_key_nodup (·.id) s.oxide_layers hnodupL a ha]
  dsimp only
  rw [List.getElem?_eq_getElem ha]
  dsimp only
  have hepsA : ¬ s.oxide_layers[a].epsilon_rel = 0 := by
    have := heps a ha (le_refl a) (by omega)
    simpa using this
  rw [if_neg hepsA]
  rw [← slice_map_cons s.oxide_layers (a + 1) m ha1 (·.id)]
  have loop := mergeLoop_slice s a (m + 2) hnodupL hnodupI hinv hlen hmetals
    heps (m + 1) 1 (by omega) (le_refl 1) (by omega)
    (s.oxide_layers[a].thickness)
    (s.oxide_layers[a].thickness / s.oxide_layers[a].epsilon_rel)
    (s.oxide_layers[a].thickness * s.oxide_layers[a].loss_tangent)
    (by omega)
  simp only [Nat.add_sub_cancel] at loop
  rw [List.take_append_drop, List.take_append_drop] at loop
  dsimp only at loop
  rw [loop]
  dsimp only
  rw [removeFirst_take_succ s.oxide_layers a ha hnodupL]
  dsimp only
  rw [slice_map_cons s.oxide_layers a (m + 1) ha (·.thickness),
    List.sum_cons, List.get_eq_getElem] at hT
  rw [slice_map_cons s.oxide_layers a (m + 1) ha
      (fun o => o.thickness / o.epsilon_rel),
    List.sum_cons, List.get_eq_getElem] at hE
  rw [if_neg (not_or.mpr ⟨hE, hT⟩)]
  rw [insertAt_of_length_eq (by rw [List.length_take]; omega)]
  simp only [slice_map_cons s.oxide_layers a (m + 1) ha, List.sum_cons,
    List.get_eq_getElem]
  exact List.cons_ne_nil _ _

end SubstrateStackPy

namespace SubstrateStackPy

/-- C1 witness: the merge theorem applied to the middle two layers of
the concrete four-oxide stack. -/
theorem merge_oxide_layers_combines_witness :
    (merge_oxide_layers exStack4 [3, 5]).isOk = true := by
  rw [merge_oxide_layers_combines exStack4 1 2 [3, 5]
    (by with_unfolding_all decide) (by with_unfolding_all decide)
    (by with_unfolding_all decide) (by norm_num)
    (by with_unfolding_all decide)
    (by
      intro j hjI h1 h2
      have hj2 : j = 2 := by omega
      subst hj2
      with_unfolding_all rfl)
    (by
      intro j hj h1 h2
      have hj12 : j = 1 ∨ j = 2 := by omega
      rcases hj12 with rfl | rfl
      · have h5 : (exStack4.oxide_layers.get ⟨1, hj⟩).epsilon_rel = 5 := by
          with_unfolding_all rfl
        rw [h5]
        norm_num
      · have h6 : (exStack4.oxide_layers.get ⟨2, hj⟩).epsilon_rel = 6 := by
          with_unfolding_all rfl
        rw [h6]
        norm_num)
    (by with_unfolding_all decide)
    (by with_unfolding_all decide) (by with_unfolding_all decide)]
  rfl

end SubstrateStackPy

namespace SubstrateStackPy

/-- The absolute position of interface number `k`: the sum of the
thicknesses of the oxide layers below it. -/
def posAt (s : SubstrateStack) (k : Nat) : ℚ :=
  ((s.oxide_layers.map (·.thickness)).take k).sum

/-- The interface identities of a stack. -/
def itfIds (s : SubstrateStack) : List Nat := s.interfaces.map (·.id)

/-- Structural well-formedness: the length invariant, pairwise-distinct
interface identities, and identities below the allocator counter. -/
def wfB (s : SubstrateStack) : Bool :=
  decide (s.interfaces.length = s.oxide_layers.length + 1) &&
  decide ((s.interfaces.map (·.id)).Nodup) &&
  s.interfaces.all fun itf => decide (itf.id < s.next_id)

theorem wfB_inv {s : SubstrateStack} (h : wfB s = true) :
    s.interfaces.length = s.oxide_layers.length + 1 := by
  simp [wfB] at h
  exact h.1.1

theorem wfB_nodup {s : SubstrateStack} (h : wfB s = true) :
    (s.interfaces.map (·.id)).Nodup := by
  simp [wfB] at h
  exact h.1.2

theorem wfB_bound {s : SubstrateStack} (h : wfB s = true) :
    ∀ itf ∈ s.interfaces, itf.id < s.next_id := by
  simp [wfB] at h
  exact h.2

/-- The accumulating walk returns the running sum at the first index
whose identity matches, provided no earlier identity does. -/
theorem gipAux_at : ∀ (itfs : List Interface) (ths : List ℚ) (pos : ℚ)
    (k : Nat) (hk : k < itfs.length), itfs.length ≤ ths.length →
    (∀ j (hj : j < itfs.length), j < k →
      (itfs.get ⟨j, hj⟩).id ≠ (itfs.get ⟨k, hk⟩).id) →
    gipAux itfs ths pos (itfs.get ⟨k, hk⟩).id
      = some (pos + (ths.take (k + 1)).sum) := by
  intro itfs
  induction itfs with
  | nil => intro ths pos k hk; cases hk
  | cons itf rest ih =>
    intro ths pos k hk hlen hfresh
    match ths with
    | [] => simp at hlen
    | th :: ths2 =>
      cases k with
      | zero =>
        rw [gipAux]
        simp
      | succ k2 =>
        rw [gipAux]
        have hk2 : k2 < rest.length := Nat.lt_of_succ_lt_succ hk
        have hne : ¬ itf.id = ((itf :: rest).get ⟨k2 + 1, hk⟩).id := by
          have := hfresh 0 (Nat.succ_pos _) (Nat.succ_pos _)
          simpa using this
        rw [if_neg (by simpa using hne)]
        have hrec := ih ths2 (pos + th) k2 hk2
          (by simpa using Nat.le_of_succ_le_succ hlen)
          (fun j hj hjk => by
            have := hfresh (j + 1) (by simpa using Nat.succ_lt_succ hj)
              (Nat.succ_lt_succ hjk)
            simpa using this)
        rw [show ((itf :: rest).get ⟨k2 + 1, hk⟩).id
            = (rest.get ⟨k2, hk2⟩).id from rfl]
        rw [hrec]
        rw [List.take_succ_cons, List.sum_cons]
        rw [add_assoc]

/-- Under well-formedness, the position of interface number `k` is
`posAt k`. -/
theorem gip_at (s : SubstrateStack) (hwf : wfB s = true) (k : Nat)
    (hk : k < s.interfaces.length) :
    get_interface_position s (s.interfaces.get ⟨k, hk⟩).id
      = some (posAt s k) := by
  have hlen : s.interfaces.length ≤ (bottomThicknesses s).length := by
    rw [bottomThicknesses]
    simp [wfB_inv hwf]
  have hfresh : ∀ j (hj : j < s.interfaces.length), j < k →
      (s.interfaces.get ⟨j, hj⟩).id ≠ (s.interfaces.get ⟨k, hk⟩).id := by
    intro j hj hjk heq
    have hnd := wfB_nodup hwf
    have hjm : j < (s.interfaces.map (·.id)).length := by simpa using hj
    have hkm : k < (s.interfaces.map (·.id)).length := by simpa using hk
    have hmap : (s.interfaces.map (·.id))[j] = (s.interfaces.map (·.id))[k]
        := by
      rw [List.getElem_map, List.getElem_map]
      exact heq
    have := (List.Nodup.getElem_inj_iff hnd).mp hmap
    omega
  rw [get_interface_position, gipAux_at s.interfaces (bottomThicknesses s)
    (- s.bulk_layer.thickness) k hk hlen hfresh]
  rw [bottomThicknesses, List.take_succ_cons, List.sum_cons]
  rw [posAt]
  congr 1
  ring

end SubstrateStackPy

namespace SubstrateStackPy

theorem gip_at2 (s : SubstrateStack) (hwf : wfB s = true) (k : Nat)
    (hk : k < s.interfaces.length) :
    get_interface_position s s.interfaces[k].id = some (posAt s k) :=
  gip_at s hwf k hk

theorem insertAt_perm {α : Type} (x : α) : ∀ (n : Nat) (l : List α),
    (insertAt n x l).Perm (x :: l)
  | n, [] => by
    rw [insertAt.eq_def]
  | 0, y :: ys => List.Perm.refl _
  | m + 1, y :: ys =>
    List.Perm.trans (List.Perm.cons y (insertAt_perm x m ys))
      (List.Perm.swap x y ys)

theorem map_insertAt {α β : Type} (f : α → β) (x : α) :
    ∀ (n : Nat) (l : List α),
    (insertAt n x l).map f = insertAt n (f x) (l.map f)
  | n, [] => by
    rw [insertAt.eq_def, insertAt.eq_def]
    rfl
  | 0, y :: ys => rfl
  | m + 1, y :: ys => by
    simp only [insertAt, List.map_cons]
    rw [map_insertAt f x m ys]

theorem insertAt_eq_take_drop {α : Type} (x : α) :
    ∀ (n : Nat) (l : List α), n ≤ l.length →
    insertAt n x l = l.take n ++ x :: l.drop n
  | 0, [], _ => rfl
  | 0, y :: ys, _ => rfl
  | m + 1, [], h => by simp at h
  | m + 1, y :: ys, h => by
    simp only [insertAt, List.take_succ_cons, List.drop_succ_cons,
      List.cons_append]
    rw [insertAt_eq_take_drop x m ys (by simpa using h)]

theorem insertAt_length {α : Type} (x : α) : ∀ (n : Nat) (l : List α),
    (insertAt n x l).length = l.length + 1 := by
  intro n l
  exact (insertAt_perm x n l).length_eq

/-- Position of the next interface: add the layer's thickness. -/
theorem posAt_succ (s : SubstrateStack) (k : Nat)
    (hk : k < s.oxide_layers.length) :
    posAt s (k + 1) = posAt s k + (s.oxide_layers.get ⟨k, hk⟩).thickness
    := by
  rw [posAt, posAt, List.take_succ, List.sum_append,
    List.getElem?_eq_getElem (by simpa using hk)]
  simp

/-- Positions are strictly increasing across a positive-thickness
layer; more importantly, the sum over a slice telescopes. -/
theorem sum_take_drop (th : List ℚ) (r m : Nat) :
    ((th.drop r).take m).sum = (th.take (r + m)).sum - (th.take r).sum
    := by
  rw [List.take_add, List.sum_append]
  ring

end SubstrateStackPy

namespace SubstrateStackPy

/-- The claim's side condition on a missing boundary position: it sits
at an existing interface (within the float threshold, the code's own
test) or strictly inside an oxide layer. -/
def attachableB (s : SubstrateStack) (p : ℚ) : Bool :=
  (get_interface_by_position s p).isSome ||
  ((List.range s.oxide_layers.length).any fun k =>
    decide (posAt s k < p) && decide (p < posAt s (k + 1)))

/-- How a stack evolves under `split_oxide_layer`: geometry-preserving
growth of the interface list. -/
structure Evolves (s s1 : SubstrateStack) : Prop where
  wf : wfB s1 = true
  metals : s1.metal_layers = s.metal_layers
  vias : s1.vias = s.vias
  bulk : s1.bulk_layer = s.bulk_layer
  mem : ∀ i ∈ itfIds s, i ∈ itfIds s1
  stable : ∀ i ∈ itfIds s,
    get_interface_position s1 i = get_interface_position s i
  attach : ∀ q, attachableB s q = true → attachableB s1 q = true

theorem Evolves.refl {s : SubstrateStack} (hwf : wfB s = true) :
    Evolves s s :=
  ⟨hwf, Eq.refl _, Eq.refl _, Eq.refl _, fun _ h => h,
    fun _ _ => Eq.refl _, fun _ h => h⟩

theorem Evolves.trans {s1 s2 s3 : SubstrateStack} (h12 : Evolves s1 s2)
    (h23 : Evolves s2 s3) : Evolves s1 s3 where
  wf := h23.wf
  metals := h23.metals.trans h12.metals
  vias := h23.vias.trans h12.vias
  bulk := h23.bulk.trans h12.bulk
  mem := fun i hi => h23.mem i (h12.mem i hi)
  stable := fun i hi =>
    (h23.stable i (h12.mem i hi)).trans (h12.stable i hi)
  attach := fun q hq => h23.attach q (h12.attach q hq)

end SubstrateStackPy

namespace SubstrateStackPy

/-- The stack after one split event of `split_oxide_layer` at loop
index `i`: the straddling layer `ox` (bottom `b`, top `t`) is shrunk to
end at `pos`, a new layer above it and a new interface between them are
inserted, and two identities are allocated. -/
def eventStack (s : SubstrateStack) (i : Nat) (ox : OxideLayer)
    (b t pos : ℚ) : SubstrateStack :=
  { s with
    oxide_layers := insertAt (i + 1)
      { id := s.next_id, thickness := t - pos
        epsilon_rel := ox.epsilon_rel, loss_tangent := ox.loss_tangent }
      (s.oxide_layers.set i { ox with thickness := pos - b })
    interfaces := insertAt (i + 1) { id := s.next_id + 1, metal := none }
      s.interfaces
    next_id := s.next_id + 2 }

theorem eventStack_thList (s : SubstrateStack) (i : Nat)
    (hi : i < s.oxide_layers.length) (ox : OxideLayer) (b t pos : ℚ) :
    (eventStack s i ox b t pos).oxide_layers.map (·.thickness)
      = (s.oxide_layers.map (·.thickness)).take i ++ (pos - b) ::
        (t - pos) :: (s.oxide_layers.map (·.thickness)).drop (i + 1)
    := by
  show (insertAt (i + 1) _ (s.oxide_layers.set i _)).map (·.thickness) = _
  rw [map_insertAt, List.map_set]
  have hi2 : i < (s.oxide_layers.map (·.thickness)).length := by
    simpa using hi
  rw [List.set_eq_take_append_cons_drop, if_pos hi2]
  rw [insertAt_eq_take_drop _ (i + 1) _ (by
    simp only [List.length_append, List.length_take, List.length_cons,
      List.length_map, List.length_drop]
    omega)]
  have hlt : ((s.oxide_layers.map (·.thickness)).take i).length = i := by
    simp only [List.length_take, List.length_map]
    omega
  have htake : ((s.oxide_layers.map (·.thickness)).take i ++ (pos - b) ::
      (s.oxide_layers.map (·.thickness)).drop (i + 1)).take (i + 1)
      = (s.oxide_layers.map (·.thickness)).take i ++ [pos - b] := by
    rw [show i + 1 = ((s.oxide_layers.map (·.thickness)).take i).length + 1
      from by rw [hlt]]
    rw [List.take_append 1]
    rfl
  have hdrop : ((s.oxide_layers.map (·.thickness)).take i ++ (pos - b) ::
      (s.oxide_layers.map (·.thickness)).drop (i + 1)).drop (i + 1)
      = (s.oxide_layers.map (·.thickness)).drop (i + 1) := by
    rw [show i + 1 = ((s.oxide_layers.map (·.thickness)).take i).length + 1
      from by rw [hlt]]
    rw [List.drop_append 1]
    rfl
  rw [htake, hdrop]
  simp

theorem eventStack_posAt_le (s : SubstrateStack) (i : Nat)
    (hi : i < s.oxide_layers.length) (ox : OxideLayer) (b t pos : ℚ)
    (j : Nat) (hj : j ≤ i) :
    posAt (eventStack s i ox b t pos) j = posAt s j := by
  rw [posAt, posAt, eventStack_thList s i hi]
  rw [List.take_append_of_le_length (by
    simp only [List.length_take, List.length_map]
    omega)]
  rw [List.take_take, Nat.min_eq_left hj]

theorem eventStack_posAt_mid (s : SubstrateStack) (i : Nat)
    (hi : i < s.oxide_layers.length) (ox : OxideLayer) (b t pos : ℚ)
    (hb : b = posAt s i) :
    posAt (eventStack s i ox b t pos) (i + 1) = pos := by
  rw [posAt, eventStack_thList s i hi]
  rw [show i + 1 = ((s.oxide_layers.map (·.thickness)).take i).length + 1
    from by simp only [List.length_take, List.length_map]; omega]
  rw [List.take_append 1]
  rw [List.sum_append]
  show ((s.oxide_layers.map (·.thickness)).take i).sum + (pos - b + 0) = pos
  rw [hb, posAt]
  ring

theorem eventStack_posAt_ge (s : SubstrateStack) (i : Nat)
    (hi : i < s.oxide_layers.length) (ox : OxideLayer) (b t pos : ℚ)
    (hb : b = posAt s i) (ht : t = posAt s (i + 1))
    (k : Nat) (hk : i + 1 ≤ k) :
    posAt (eventStack s i ox b t pos) (k + 1) = posAt s k := by
  rw [posAt, eventStack_thList s i hi]
  rw [show k + 1 = ((s.oxide_layers.map (·.thickness)).take i).length +
    (k - i + 1) from by simp only [List.length_take, List.length_map]; omega]
  rw [List.take_append (k - i + 1)]
  rw [List.sum_append]
  rw [show k - i + 1 = (k - i - 1) + 1 + 1 from by omega]
  rw [List.take_succ_cons, List.take_succ_cons, List.sum_cons,
    List.sum_cons]
  rw [sum_take_drop]
  rw [show i + 1 + (k - i - 1) = k from by omega]
  rw [hb, ht]
  simp only [posAt]
  ring

end SubstrateStackPy

namespace SubstrateStackPy

theorem insertAt_get_lt {α : Type} (x : α) :
    ∀ (n : Nat) (l : List α) (k : Nat) (hk : k < n) (hkl : k < l.length)
      (hk2 : k < (insertAt n x l).length),
    (insertAt n x l).get ⟨k, hk2⟩ = l.get ⟨k, hkl⟩
  | 0, l, k, hk, _, _ => by omega
  | n + 1, [], k, hk, hkl, _ => by simp at hkl
  | n + 1, y :: ys, 0, hk, hkl, hk2 => by
    simp [insertAt]
  | n + 1, y :: ys, k + 1, hk, hkl, hk2 => by
    show (insertAt n x ys).get ⟨k, _⟩ = ys.get ⟨k, _⟩
    exact insertAt_get_lt x n ys k (by omega) (by simpa using hkl) _

theorem insertAt_get_ge {α : Type} (x : α) :
    ∀ (n : Nat) (l : List α) (k : Nat) (hk : n ≤ k) (hkl : k < l.length)
      (hk2 : k + 1 < (insertAt n x l).length),
    (insertAt n x l).get ⟨k + 1, hk2⟩ = l.get ⟨k, hkl⟩
  | 0, [], k, _, hkl, _ => by simp at hkl
  | 0, y :: ys, k, _, hkl, hk2 => by
    show (y :: ys).get ⟨k, _⟩ = (y :: ys).get ⟨k, hkl⟩
    rfl
  | n + 1, [], k, _, hkl, _ => by simp at hkl
  | n + 1, y :: ys, 0, hk, hkl, hk2 => by omega
  | n + 1, y :: ys, k + 1, hk, hkl, hk2 => by
    show (insertAt n x ys).get ⟨k + 1, _⟩ = ys.get ⟨k, _⟩
    exact insertAt_get_ge x n ys k (by omega) (by simpa using hkl) _

theorem insertAt_get_self {α : Type} (x : α) :
    ∀ (n : Nat) (l : List α) (hn : n ≤ l.length)
      (hk : n < (insertAt n x l).length),
    (insertAt n x l).get ⟨n, hk⟩ = x
  | 0, [], _, _ => rfl
  | 0, y :: ys, _, _ => rfl
  | n + 1, [], hn, _ => by simp at hn
  | n + 1, y :: ys, hn, hk => by
    show (insertAt n x ys).get ⟨n, _⟩ = x
    exact insertAt_get_self x n ys (by simpa using hn) _

end SubstrateStackPy

namespace SubstrateStackPy

theorem eventStack_wf (s : SubstrateStack) (hwf : wfB s = true) (i : Nat)
    (hi : i < s.oxide_layers.length) (ox : OxideLayer) (b t pos : ℚ) :
    wfB (eventStack s i ox b t pos) = true := by
  have hperm : ((eventStack s i ox b t pos).interfaces.map (·.id)).Perm
      ((s.next_id + 1) :: s.interfaces.map (·.id)) := by
    show ((insertAt (i + 1) { id := s.next_id + 1, metal := none }
      s.interfaces).map (·.id)).Perm _
    rw [map_insertAt]
    exact insertAt_perm _ _ _
  simp only [wfB, Bool.and_eq_true, decide_eq_true_eq, List.all_eq_true]
  refine ⟨⟨?_, ?_⟩, ?_⟩
  · show (insertAt (i + 1) _ s.interfaces).length
      = (insertAt (i + 1) _ (s.oxide_layers.set i _)).length + 1
    rw [insertAt_length, insertAt_length, List.length_set]
    rw [wfB_inv hwf]
  · rw [hperm.nodup_iff]
    rw [List.nodup_cons]
    refine ⟨?_, wfB_nodup hwf⟩
    intro hmem
    rw [List.mem_map] at hmem
    obtain ⟨itf, hitf, hid⟩ := hmem
    have := wfB_bound hwf itf hitf
    omega
  · intro itf hitf
    have hmem : itf.id ∈ ((s.next_id + 1) :: s.interfaces.map (·.id)) := by
      refine hperm.mem_iff.mp ?_
      exact List.mem_map_of_mem _ hitf
    show itf.id < s.next_id + 2
    rcases List.mem_cons.mp hmem with h | h
    · omega
    · rw [List.mem_map] at h
      obtain ⟨itf2, hitf2, hid⟩ := h
      have := wfB_bound hwf itf2 hitf2
      omega

end SubstrateStackPy

namespace SubstrateStackPy

theorem eventStack_itfs (s : SubstrateStack) (i : Nat) (ox : OxideLayer)
    (b t pos : ℚ) :
    (eventStack s i ox b t pos).interfaces
      = insertAt (i + 1) { id := s.next_id + 1, metal := none }
        s.interfaces := rfl

theorem eventStack_oxlen (s : SubstrateStack) (i : Nat) (ox : OxideLayer)
    (b t pos : ℚ) :
    (eventStack s i ox b t pos).oxide_layers.length
      = s.oxide_layers.length + 1 := by
  show (insertAt (i + 1) _ (s.oxide_layers.set i _)).length = _
  rw [insertAt_length, List.length_set]

theorem eventStack_gip (s : SubstrateStack) (hwf : wfB s = true) (i : Nat)
    (hi : i < s.oxide_layers.length) (ox : OxideLayer) (b t pos : ℚ)
    (hb : b = posAt s i) (ht : t = posAt s (i + 1)) :
    ∀ id ∈ itfIds s, get_interface_position (eventStack s i ox b t pos) id
      = get_interface_position s id := by
  intro id hid
  rw [itfIds, List.mem_map] at hid
  obtain ⟨itf, hitf, hid2⟩ := hid
  obtain ⟨⟨k, hk⟩, hkeq⟩ := List.mem_iff_get.mp hitf
  have hkid : (s.interfaces.get ⟨k, hk⟩).id = id := by rw [hkeq, hid2]
  subst hkid
  rw [gip_at s hwf k hk]
  have hwf1 := eventStack_wf s hwf i hi ox b t pos
  have hlen1 : (eventStack s i ox b t pos).interfaces.length
      = s.interfaces.length + 1 := by
    rw [eventStack_itfs, insertAt_length]
  have hin : i + 1 ≤ s.interfaces.length := by
    have := wfB_inv hwf
    omega
  by_cases hki : k ≤ i
  · have hk1 : k < (eventStack s i ox b t pos).interfaces.length := by
      omega
    have hgetk : (eventStack s i ox b t pos).interfaces.get ⟨k, hk1⟩
        = s.interfaces.get ⟨k, hk⟩ := by
      show (insertAt (i + 1) { id := s.next_id + 1, metal := none }
        s.interfaces).get ⟨k, _⟩ = s.interfaces.get ⟨k, hk⟩
      exact insertAt_get_lt _ (i + 1) s.interfaces k (by omega) hk _
    have hpos := gip_at (eventStack s i ox b t pos) hwf1 k hk1
    rw [hgetk] at hpos
    rw [hpos, eventStack_posAt_le s i hi ox b t pos k hki]
  · have hge : i + 1 ≤ k := by omega
    have hk1 : k + 1 < (eventStack s i ox b t pos).interfaces.length := by
      omega
    have hgetk : (eventStack s i ox b t pos).interfaces.get ⟨k + 1, hk1⟩
        = s.interfaces.get ⟨k, hk⟩ := by
      show (insertAt (i + 1) { id := s.next_id + 1, metal := none }
        s.interfaces).get ⟨k + 1, _⟩ = s.interfaces.get ⟨k, hk⟩
      exact insertAt_get_ge _ (i + 1) s.interfaces k hge hk _
    have hpos := gip_at (eventStack s i ox b t pos) hwf1 (k + 1) hk1
    rw [hgetk] at hpos
    rw [hpos, eventStack_posAt_ge s i hi ox b t pos hb ht k hge]

theorem eventStack_mem_itf (s : SubstrateStack) (i : Nat)
    (ox : OxideLayer) (b t pos : ℚ) :
    ∀ itf ∈ s.interfaces, itf ∈ (eventStack s i ox b t pos).interfaces
    := by
  intro itf hitf
  rw [eventStack_itfs]
  exact ((insertAt_perm _ _ _).mem_iff).mpr (List.mem_cons_of_mem _ hitf)

theorem eventStack_mem (s : SubstrateStack) (i : Nat) (ox : OxideLayer)
    (b t pos : ℚ) :
    ∀ id ∈ itfIds s, id ∈ itfIds (eventStack s i ox b t pos) := by
  intro id hid
  rw [itfIds, List.mem_map] at hid
  obtain ⟨itf, hitf, hid2⟩ := hid
  rw [itfIds, List.mem_map]
  exact ⟨itf, eventStack_mem_itf s i ox b t pos itf hitf, hid2⟩

end SubstrateStackPy

namespace SubstrateStackPy

theorem eventStack_attach (s : SubstrateStack) (hwf : wfB s = true)
    (i : Nat) (hi : i < s.oxide_layers.length) (ox : OxideLayer)
    (b t pos : ℚ) (hb : b = posAt s i) (ht : t = posAt s (i + 1)) :
    ∀ q, attachableB s q = true →
      attachableB (eventStack s i ox b t pos) q = true := by
  intro q hq
  have hwf1 := eventStack_wf s hwf i hi ox b t pos
  have hstable := eventStack_gip s hwf i hi ox b t pos hb ht
  rw [attachableB, Bool.or_eq_true] at hq ⊢
  rcases hq with hclose | hstr
  · left
    rw [get_interface_by_position, List.find?_isSome] at hclose ⊢
    obtain ⟨itf, hitf, hpred⟩ := hclose
    refine ⟨itf, eventStack_mem_itf s i ox b t pos itf hitf, ?_⟩
    rw [hstable itf.id (List.mem_map_of_mem _ hitf)]
    exact hpred
  · rw [List.any_eq_true] at hstr
    obtain ⟨k, hkmem, hcond⟩ := hstr
    rw [List.mem_range] at hkmem
    rw [Bool.and_eq_true, decide_eq_true_eq, decide_eq_true_eq] at hcond
    obtain ⟨hlo, hhi⟩ := hcond
    have hoxlen := eventStack_oxlen s i ox b t pos
    rcases Nat.lt_or_ge k i with hki | hki
    · -- entirely below the split layer
      right
      rw [List.any_eq_true]
      refine ⟨k, by rw [List.mem_range]; omega, ?_⟩
      rw [Bool.and_eq_true, decide_eq_true_eq, decide_eq_true_eq]
      rw [eventStack_posAt_le s i hi ox b t pos k (by omega),
        eventStack_posAt_le s i hi ox b t pos (k + 1) (by omega)]
      exact ⟨hlo, hhi⟩
    · rcases Nat.lt_or_ge i k with hik | hik
      · -- entirely above the split layer
        right
        rw [List.any_eq_true]
        refine ⟨k + 1, by rw [List.mem_range]; omega, ?_⟩
        rw [Bool.and_eq_true, decide_eq_true_eq, decide_eq_true_eq]
        rw [eventStack_posAt_ge s i hi ox b t pos hb ht k (by omega),
          eventStack_posAt_ge s i hi ox b t pos hb ht (k + 1) (by omega)]
        exact ⟨hlo, hhi⟩
      · -- the split layer itself
        have hkeq : k = i := by omega
        subst hkeq
        rcases lt_trichotomy q pos with hqp | hqp | hqp
        · right
          rw [List.any_eq_true]
          refine ⟨k, by rw [List.mem_range]; omega, ?_⟩
          rw [Bool.and_eq_true, decide_eq_true_eq, decide_eq_true_eq]
          rw [eventStack_posAt_le s k hi ox b t pos k (le_refl k),
            eventStack_posAt_mid s k hi ox b t pos hb]
          exact ⟨hlo, hqp⟩
        · -- exactly at the new interface
          left
          rw [get_interface_by_position, List.find?_isSome]
          have hin : k + 1 ≤ s.interfaces.length := by
            have := wfB_inv hwf
            omega
          have hk1 : k + 1 <
              (eventStack s k ox b t pos).interfaces.length := by
            rw [eventStack_itfs, insertAt_length]
            omega
          refine ⟨(eventStack s k ox b t pos).interfaces.get ⟨k + 1, hk1⟩,
            List.get_mem _ _ _, ?_⟩
          have hgid : ((eventStack s k ox b t pos).interfaces.get
              ⟨k + 1, hk1⟩).id = s.next_id + 1 := by
            have : (eventStack s k ox b t pos).interfaces.get ⟨k + 1, hk1⟩
                = { id := s.next_id + 1, metal := none } := by
              show (insertAt (k + 1) { id := s.next_id + 1, metal := none }
                s.interfaces).get ⟨k + 1, _⟩ = _
              exact insertAt_get_self _ (k + 1) s.interfaces hin _
            rw [this]
          rw [hgid]
          have hpos := gip_at (eventStack s k ox b t pos)
            (eventStack_wf s hwf k hi ox b t pos) (k + 1) hk1
          rw [hgid] at hpos
          rw [hpos, eventStack_posAt_mid s k hi ox b t pos hb]
          subst hqp
          simp [float_threshold]
        · right
          rw [List.any_eq_true]
          refine ⟨k + 1, by rw [List.mem_range]; omega, ?_⟩
          rw [Bool.and_eq_true, decide_eq_true_eq, decide_eq_true_eq]
          rw [eventStack_posAt_mid s k hi ox b t pos hb,
            eventStack_posAt_ge s k hi ox b t pos hb ht (k + 1)
              (le_refl _)]
          exact ⟨hqp, hhi⟩

/-- One split event evolves the stack. -/
theorem event_evolves (s : SubstrateStack) (hwf : wfB s = true) (i : Nat)
    (hi : i < s.oxide_layers.length) (ox : OxideLayer) (b t pos : ℚ)
    (hb : b = posAt s i) (ht : t = posAt s (i + 1)) :
    Evolves s (eventStack s i ox b t pos) where
  wf := eventStack_wf s hwf i hi ox b t pos
  metals := rfl
  vias := rfl
  bulk := rfl
  mem := eventStack_mem s i ox b t pos
  stable := eventStack_gip s hwf i hi ox b t pos hb ht
  attach := eventStack_attach s hwf i hi ox b t pos hb ht

end SubstrateStackPy

namespace SubstrateStackPy

theorem findIdx_key_nodup {α κ : Type} [DecidableEq κ] (f : α → κ)
    (l : List α) (h : (l.map f).Nodup) (j : Nat) (hj : j < l.length) :
    l.findIdx (fun x => f x = f (l.get ⟨j, hj⟩)) = j := by
  rw [List.findIdx_eq_findIdx?]
  rw [findIdx?_key_nodup f l h j hj]

/-- In the event branch of `splitAux`, the interface-insertion index
computed by `get_interface_number` is `i + 1`. -/
theorem splitAux_insert_idx (s : SubstrateStack) (hwf : wfB s = true)
    (i : Nat) (hi1 : i + 1 < s.interfaces.length) :
    get_interface_number s (s.interfaces[i + 1].id) = i + 1 := by
  show s.interfaces.findIdx
    (fun x => x.id = (s.interfaces.get ⟨i + 1, hi1⟩).id) = i + 1
  exact findIdx_key_nodup (·.id) s.interfaces (wfB_nodup hwf) (i + 1) hi1

theorem splitAux_evolves : ∀ (fuel : Nat) (s : SubstrateStack) (pos : ℚ)
    (i : Nat) (found : Option Nat), wfB s = true →
    Evolves s (splitAux fuel s pos i found).1
  | 0, s, pos, i, found, hwf => Evolves.refl hwf
  | fuel + 1, s, pos, i, found, hwf => by
    rw [splitAux]
    cases hox : s.oxide_layers[i]? with
    | none => exact Evolves.refl hwf
    | some ox =>
      have hi : i < s.oxide_layers.length := by
        by_contra h2
        rw [List.getElem?_eq_none (by omega)] at hox
        cases hox
      have hiI : i < s.interfaces.length := by
        have := wfB_inv hwf
        omega
      have hiI1 : i + 1 < s.interfaces.length := by
        have := wfB_inv hwf
        omega
      rw [List.getElem?_eq_getElem hiI, List.getElem?_eq_getElem hiI1]
      dsimp only [Option.some_bind]
      rw [gip_at2 s hwf i hiI, gip_at2 s hwf (i + 1) hiI1]
      dsimp only
      by_cases hcond : posAt s (i + 1) > pos ∧ pos > posAt s i
      · rw [if_pos hcond]
        simp only [Option.map_some', Option.getD_some]
        rw [splitAux_insert_idx s hwf i hiI1]
        have hev := event_evolves s hwf i hi ox (posAt s i)
          (posAt s (i + 1)) pos rfl rfl
        have hwf1 := eventStack_wf s hwf i hi ox (posAt s i)
          (posAt s (i + 1)) pos
        exact hev.trans
          (splitAux_evolves fuel _ pos (i + 2) _ hwf1)
      · rw [if_neg hcond]
        exact splitAux_evolves fuel s pos (i + 1) found hwf

end SubstrateStackPy

namespace SubstrateStackPy

theorem splitAux_found : ∀ (fuel : Nat) (s : SubstrateStack) (pos : ℚ)
    (i : Nat) (x : Nat),
    ((splitAux fuel s pos i (some x)).2).isSome = true
  | 0, s, pos, i, x => rfl
  | fuel + 1, s, pos, i, x => by
    rw [splitAux]
    cases hox : s.oxide_layers[i]? with
    | none => rfl
    | some ox =>
      cases hb : (s.interfaces[i]?).bind fun itf =>
          get_interface_position s itf.id with
      | none =>
        cases ht : (s.interfaces[i + 1]?).bind fun itf =>
            get_interface_position s itf.id with
        | none => exact splitAux_found fuel s pos (i + 1) x
        | some t => exact splitAux_found fuel s pos (i + 1) x
      | some b =>
        cases ht : (s.interfaces[i + 1]?).bind fun itf =>
            get_interface_position s itf.id with
        | none => exact splitAux_found fuel s pos (i + 1) x
        | some t =>
          dsimp only
          split
          · exact splitAux_found fuel _ pos (i + 2) _
          · exact splitAux_found fuel s pos (i + 1) x

theorem splitAux_success : ∀ (fuel : Nat) (s : SubstrateStack) (pos : ℚ)
    (i : Nat) (found : Option Nat), wfB s = true →
    s.oxide_layers.length + 1 ≤ fuel + i →
    (∃ k, i ≤ k ∧ ∃ (hk : k < s.oxide_layers.length),
      posAt s k < pos ∧ pos < posAt s (k + 1)) →
    ((splitAux fuel s pos i found).2).isSome = true
  | 0, s, pos, i, found, hwf, hfuel, ⟨k, hik, hk, _, _⟩ => by omega
  | fuel + 1, s, pos, i, found, hwf, hfuel, hstr => by
    obtain ⟨k, hik, hk, hklo, hkhi⟩ := hstr
    rw [splitAux]
    have hi : i < s.oxide_layers.length := by omega
    cases hox : s.oxide_layers[i]? with
    | none =>
      rw [List.getElem?_eq_getElem hi] at hox
      cases hox
    | some ox =>
      have hiI : i < s.interfaces.length := by
        have := wfB_inv hwf
        omega
      have hiI1 : i + 1 < s.interfaces.length := by
        have := wfB_inv hwf
        omega
      rw [List.getElem?_eq_getElem hiI, List.getElem?_eq_getElem hiI1]
      dsimp only [Option.some_bind]
      rw [gip_at2 s hwf i hiI, gip_at2 s hwf (i + 1) hiI1]
      dsimp only
      by_cases hcond : posAt s (i + 1) > pos ∧ pos > posAt s i
      · rw [if_pos hcond]
        exact splitAux_found fuel _ pos (i + 2) _
      · rw [if_neg hcond]
        refine splitAux_success fuel s pos (i + 1) found hwf (by omega)
          ⟨k, ?_, hk, hklo, hkhi⟩
        rcases Nat.lt_or_ge i k with h | h
        · omega
        · exfalso
          have hki : k = i := by omega
          subst hki
          exact hcond ⟨hkhi, hklo⟩

end SubstrateStackPy

namespace SubstrateStackPy

/-- When an identity is one of the stack's interfaces, its position is
computable and equals `posAt` of its index. -/
theorem gip_mem_some (s : SubstrateStack) (hwf : wfB s = true) {id : Nat}
    (hid : id ∈ itfIds s) :
    ∃ k, ∃ (hk : k < s.interfaces.length),
      (s.interfaces.get ⟨k, hk⟩).id = id ∧
      get_interface_position s id = some (posAt s k) := by
  rw [itfIds, List.mem_map] at hid
  obtain ⟨itf, hitf, hid2⟩ := hid
  obtain ⟨⟨k, hk⟩, hkeq⟩ := List.mem_iff_get.mp hitf
  refine ⟨k, hk, by rw [hkeq, hid2], ?_⟩
  rw [show id = (s.interfaces.get ⟨k, hk⟩).id from by rw [hkeq, hid2]]
  exact gip_at s hwf k hk

theorem split_evolves (s : SubstrateStack) (hwf : wfB s = true) (pos : ℚ) :
    Evolves s (split_oxide_layer s pos).1 :=
  splitAux_evolves _ s pos 0 none hwf

theorem split_success (s : SubstrateStack) (hwf : wfB s = true) (pos : ℚ)
    (h : ∃ k, ∃ (hk : k < s.oxide_layers.length),
      posAt s k < pos ∧ pos < posAt s (k + 1)) :
    ((split_oxide_layer s pos).2).isSome = true := by
  obtain ⟨k, hk, hlo, hhi⟩ := h
  exact splitAux_success _ s pos 0 none hwf (by omega)
    ⟨k, Nat.zero_le k, hk, hlo, hhi⟩

/-- If the position is attachable but no existing interface matches,
the split succeeds. -/
theorem attach_or_split (s : SubstrateStack) (hwf : wfB s = true) (p : ℚ)
    (hat : attachableB s p = true)
    (hnone : get_interface_by_position s p = none) :
    ((split_oxide_layer s p).2).isSome = true := by
  rw [attachableB, Bool.or_eq_true] at hat
  rcases hat with hclose | hstr
  · rw [hnone] at hclose
    cases hclose
  · rw [List.any_eq_true] at hstr
    obtain ⟨k, hkmem, hcond⟩ := hstr
    rw [List.mem_range] at hkmem
    rw [Bool.and_eq_true, decide_eq_true_eq, decide_eq_true_eq] at hcond
    exact split_success s hwf p ⟨k, hkmem, hcond.1, hcond.2⟩

/-- The initial shape of a metal assumed by the claim: exactly the one
interface matching its extension direction is set, and that interface
belongs to the stack. -/
def metalPreB (s : SubstrateStack) (m : MetalLayer) : Bool :=
  (decide (m.extend_direction = DOWN) &&
    decide (m.bottom_interface = none) &&
    (s.interfaces.any fun itf => some itf.id = m.top_interface)) ||
  (decide (m.extend_direction = UP) &&
    decide (m.top_interface = none) &&
    (s.interfaces.any fun itf => some itf.id = m.bottom_interface))

/-- The missing boundary position of a metal: below the top interface
for a DOWN metal, above the bottom interface for an UP metal. -/
def missingBoundaryPos (s : SubstrateStack) (m : MetalLayer) : Option ℚ :=
  if m.extend_direction = DOWN then
    (m.top_interface.bind (get_interface_position s)).map
      (· - m.thickness)
  else
    (m.bottom_interface.bind (get_interface_position s)).map
      (· + m.thickness)

/-- The claim's hypotheses on a stack passed to `standardize`: each
metal has exactly the one interface of its direction, and its missing
boundary position is attachable (at an existing interface or strictly
inside an oxide layer). -/
def standardizeReady (s : SubstrateStack) : Bool :=
  s.metal_layers.all fun m =>
    metalPreB s m &&
      (match missingBoundaryPos s m with
       | some p => attachableB s p
       | none => false)

theorem metalPre_cases (s : SubstrateStack) (m : MetalLayer)
    (h : metalPreB s m = true) :
    (m.extend_direction = DOWN ∧ m.bottom_interface = none ∧
      ∃ tid, m.top_interface = some tid ∧ tid ∈ itfIds s) ∨
    (m.extend_direction = UP ∧ m.top_interface = none ∧
      ∃ bid, m.bottom_interface = some bid ∧ bid ∈ itfIds s) := by
  rw [metalPreB, Bool.or_eq_true, Bool.and_eq_true, Bool.and_eq_true,
    Bool.and_eq_true, Bool.and_eq_true] at h
  rcases h with ⟨⟨hdir, hbot⟩, hany⟩ | ⟨⟨hdir, htop⟩, hany⟩
  · left
    rw [decide_eq_true_eq] at hdir hbot
    rw [List.any_eq_true] at hany
    obtain ⟨itf, hitf, hid⟩ := hany
    rw [decide_eq_true_eq] at hid
    exact ⟨hdir, hbot, itf.id, hid.symm, List.mem_map_of_mem _ hitf⟩
  · right
    rw [decide_eq_true_eq] at hdir htop
    rw [List.any_eq_true] at hany
    obtain ⟨itf, hitf, hid⟩ := hany
    rw [decide_eq_true_eq] at hid
    exact ⟨hdir, htop, itf.id, hid.symm, List.mem_map_of_mem _ hitf⟩

theorem standardizeReady_mem (s : SubstrateStack)
    (h : standardizeReady s = true) :
    ∀ m ∈ s.metal_layers, metalPreB s m = true ∧
      ∃ p, missingBoundaryPos s m = some p ∧ attachableB s p = true := by
  intro m hm
  rw [standardizeReady, List.all_eq_true] at h
  have := h m hm
  rw [Bool.and_eq_true] at this
  refine ⟨this.1, ?_⟩
  rcases hmb : missingBoundaryPos s m with _ | p
  · rw [hmb] at this
    cases this.2
  · rw [hmb] at this
    exact ⟨p, rfl, this.2⟩

end SubstrateStackPy

namespace SubstrateStackPy

/-- The invariant of `standardize`'s first loop after processing the
first `i` metals. -/
structure LoopInv (s0 s : SubstrateStack) (i : Nat) : Prop where
  wf : wfB s = true
  mlen : s.metal_layers.length = s0.metal_layers.length
  mhi : ∀ j, i ≤ j → s.metal_layers[j]? = s0.metal_layers[j]?
  mlo : ∀ j (hj : j < s.metal_layers.length), j < i →
    (s.metal_layers.get ⟨j, hj⟩).bottom_interface.isSome = true ∧
    (s.metal_layers.get ⟨j, hj⟩).top_interface.isSome = true ∧
    (∃ m0, s0.metal_layers[j]? = some m0 ∧
      (s.metal_layers.get ⟨j, hj⟩).extend_direction = m0.extend_direction)
  mem : ∀ id ∈ itfIds s0, id ∈ itfIds s
  stable : ∀ id ∈ itfIds s0,
    get_interface_position s id = get_interface_position s0 id
  attach : ∀ q, attachableB s0 q = true → attachableB s q = true

theorem LoopInv.start (s0 : SubstrateStack) (hwf : wfB s0 = true) :
    LoopInv s0 s0 0 where
  wf := hwf
  mlen := rfl
  mhi := fun _ _ => rfl
  mlo := fun j hj hlt => absurd hlt (Nat.not_lt_zero j)
  mem := fun _ h => h
  stable := fun _ _ => rfl
  attach := fun _ h => h

/-- Extend the loop invariant across an `Evolves` step followed by a
single-metal update at index `i` that fills the missing interface. -/
theorem LoopInv.step {s0 s s1 : SubstrateStack} {i : Nat}
    (hinv : LoopInv s0 s i) (hev : Evolves s s1) {m : MetalLayer}
    (hm : s.metal_layers[i]? = some m) (m1 : MetalLayer)
    (hb1 : m1.bottom_interface.isSome = true)
    (ht1 : m1.top_interface.isSome = true)
    (hd1 : m1.extend_direction = m.extend_direction) :
    LoopInv s0 (setMetalAt s1 i m1) (i + 1) where
  wf := by
    have h1 := hev.wf
    simp only [wfB, setMetalAt] at h1 ⊢
    exact h1
  mlen := by
    simp only [setMetalAt, List.length_set, hev.metals]
    exact hinv.mlen
  mhi := by
    intro j hj
    simp only [setMetalAt, List.getElem?_set, hev.metals]
    rw [if_neg (by omega)]
    exact hinv.mhi j (by omega)
  mlo := by
    intro j hj hlt
    simp only [setMetalAt, List.length_set, hev.metals] at hj
    by_cases hji : j = i
    · subst hji
      have hget : ((setMetalAt s1 j m1).metal_layers.get
          ⟨j, by simpa [setMetalAt, List.length_set, hev.metals] using hj⟩)
          = m1 := by
        simp only [setMetalAt, hev.metals, List.get_eq_getElem,
          List.getElem_set]
        simp
      rw [hget]
      refine ⟨hb1, ht1, m, ?_, by rw [hd1]⟩
      rw [← hinv.mhi j (le_refl j)]
      exact hm
    · have hjlt : j < i := by omega
      have hget : ((setMetalAt s1 i m1).metal_layers.get
          ⟨j, by simpa [setMetalAt, List.length_set, hev.metals] using hj⟩)
          = s.metal_layers.get ⟨j, hj⟩ := by
        simp only [setMetalAt, hev.metals, List.get_eq_getElem,
          List.getElem_set]
        rw [if_neg (by omega)]
      rw [hget]
      exact hinv.mlo j hj hjlt
  mem := by
    intro id hid
    have : id ∈ itfIds s1 := hev.mem id (hinv.mem id hid)
    simpa [itfIds, setMetalAt] using this
  stable := by
    intro id hid
    have h1 : get_interface_position (setMetalAt s1 i m1) id
        = get_interface_position s1 id := rfl
    rw [h1, hev.stable id (hinv.mem id hid), hinv.stable id hid]
  attach := by
    intro q hq
    have h1 : attachableB (setMetalAt s1 i m1) q = attachableB s1 q := rfl
    rw [h1]
    exact hev.attach q (hinv.attach q hq)

end SubstrateStackPy

namespace SubstrateStackPy

theorem standardizeStep_ok (s0 s : SubstrateStack) (i : Nat)
    (hwf0 : wfB s0 = true) (hready : standardizeReady s0 = true)
    (hinv : LoopInv s0 s i) (hi : i < s.metal_layers.length) :
    ∃ s2, standardizeStep s i = .ok s2 ∧ LoopInv s0 s2 (i + 1) := by
  have hm : s.metal_layers[i]? = some s.metal_layers[i] :=
    List.getElem?_eq_getElem hi
  have hm0 : s.metal_layers[i]? = s0.metal_layers[i]? :=
    hinv.mhi i (le_refl i)
  have hmem0 : s.metal_layers[i] ∈ s0.metal_layers := by
    have : s0.metal_layers[i]? = some s.metal_layers[i] := by
      rw [← hm0, hm]
    exact List.getElem?_mem this
  obtain ⟨hpre, p, hmb, hat⟩ :=
    standardizeReady_mem s0 hready s.metal_layers[i] hmem0
  set m := s.metal_layers[i] with hmdef
  rcases metalPre_cases s0 m hpre with
    ⟨hdir, hbot, tid, htop, htidmem⟩ | ⟨hdir, htop, bid, hbot, hbidmem⟩
  · -- DOWN metal: attach or create the bottom interface
    obtain ⟨k, hk, _, hgip0⟩ := gip_mem_some s0 hwf0 htidmem
    have hgips : get_interface_position s tid = some (posAt s0 k) := by
      rw [hinv.stable tid htidmem, hgip0]
    have hpval : p = posAt s0 k - m.thickness := by
      rw [missingBoundaryPos, if_pos hdir, htop] at hmb
      simp only [Option.some_bind, Option.map_some'] at hmb
      rw [hgip0] at hmb
      simp at hmb
      exact hmb.symm
    rw [standardizeStep, hm]
    dsimp only
    rw [if_pos ⟨by rw [htop]; rfl, hbot⟩]
    rw [htop]
    simp only [Option.some_bind]
    rw [hgips]
    dsimp only
    cases hfind : get_interface_by_position s (posAt s0 k - m.thickness)
      with
    | some itf =>
      refine ⟨_, rfl, ?_⟩
      refine hinv.step (Evolves.refl hinv.wf) hm _ rfl rfl rfl
    | none =>
      refine ⟨_, rfl, ?_⟩
      have hsplit : ((split_oxide_layer s
          (posAt s0 k - m.thickness)).2).isSome = true := by
        refine attach_or_split s hinv.wf _ ?_ hfind
        refine hinv.attach _ ?_
        rw [← hpval]
        exact hat
      refine hinv.step (split_evolves s hinv.wf _) hm _ hsplit rfl rfl
  · -- UP metal: attach or create the top interface
    obtain ⟨k, hk, _, hgip0⟩ := gip_mem_some s0 hwf0 hbidmem
    have hgips : get_interface_position s bid = some (posAt s0 k) := by
      rw [hinv.stable bid hbidmem, hgip0]
    have hpval : p = posAt s0 k + m.thickness := by
      rw [missingBoundaryPos, if_neg (by rw [hdir]; decide), hbot] at hmb
      simp only [Option.some_bind, Option.map_some'] at hmb
      rw [hgip0] at hmb
      simp at hmb
      exact hmb.symm
    rw [standardizeStep, hm]
    dsimp only
    rw [if_neg (by rw [htop]; simp)]
    rw [if_pos ⟨by rw [hbot]; rfl, htop⟩]
    rw [hbot]
    simp only [Option.some_bind]
    rw [hgips]
    dsimp only
    cases hfind : get_interface_by_position s (posAt s0 k + m.thickness)
      with
    | some itf =>
      refine ⟨_, rfl, ?_⟩
      refine hinv.step (Evolves.refl hinv.wf) hm _ rfl rfl rfl
    | none =>
      refine ⟨_, rfl, ?_⟩
      have hsplit : ((split_oxide_layer s
          (posAt s0 k + m.thickness)).2).isSome = true := by
        refine attach_or_split s hinv.wf _ ?_ hfind
        refine hinv.attach _ ?_
        rw [← hpval]
        exact hat
      refine hinv.step (split_evolves s hinv.wf _) hm _ rfl hsplit rfl

end SubstrateStackPy

namespace SubstrateStackPy

theorem standardizeLoop1_ok (s0 : SubstrateStack)
    (hwf0 : wfB s0 = true) (hready : standardizeReady s0 = true) :
    ∀ fuel s i, LoopInv s0 s i → s.metal_layers.length ≤ i + fuel →
    ∃ s2 i2, standardizeLoop1 fuel s i = .ok s2 ∧ LoopInv s0 s2 i2 ∧
      s2.metal_layers.length ≤ i2 := by
  intro fuel
  induction fuel with
  | zero =>
    intro s i hinv hle
    exact ⟨s, i, rfl, hinv, by simpa using hle⟩
  | succ fuel ih =>
    intro s i hinv hle
    rw [standardizeLoop1]
    by_cases hi : i < s.metal_layers.length
    · rw [if_pos hi]
      obtain ⟨s2, hstep, hinv2⟩ :=
        standardizeStep_ok s0 s i hwf0 hready hinv hi
      rw [hstep]
      refine ih s2 (i + 1) hinv2 ?_
      have hlen2 : s2.metal_layers.length = s.metal_layers.length := by
        rw [hinv2.mlen, hinv.mlen]
      omega
    · rw [if_neg hi]
      exact ⟨s, i, rfl, hinv, by omega⟩

/-- Invariant of `standardize`'s second loop: the metal count is `n`,
every metal owns both interfaces, the metals before index `i` extend
up, and every metal extends either up or down. -/
def Loop2Inv (n : Nat) (s : SubstrateStack) (i : Nat) : Prop :=
  s.metal_layers.length = n ∧
  ∀ j (hj : j < s.metal_layers.length),
    (s.metal_layers.get ⟨j, hj⟩).bottom_interface.isSome = true ∧
    (s.metal_layers.get ⟨j, hj⟩).top_interface.isSome = true ∧
    (j < i → (s.metal_layers.get ⟨j, hj⟩).extend_direction = UP) ∧
    ((s.metal_layers.get ⟨j, hj⟩).extend_direction = UP ∨
      (s.metal_layers.get ⟨j, hj⟩).extend_direction = DOWN)

theorem flipStep_ok (n : Nat) (s : SubstrateStack) (i : Nat)
    (hinv : Loop2Inv n s i) (hi : i < s.metal_layers.length) :
    ∃ s2, flipStep s i = .ok s2 ∧ Loop2Inv n s2 (i + 1) := by
  obtain ⟨hn, hall⟩ := hinv
  obtain ⟨hb, ht, _, hdir⟩ := hall i hi
  have hm : s.metal_layers[i]? = some (s.metal_layers.get ⟨i, hi⟩) := by
    rw [List.getElem?_eq_getElem hi]
    rfl
  set m := s.metal_layers.get ⟨i, hi⟩ with hmdef
  rcases hdir with hup | hdown
  · refine ⟨s, ?_, hn, ?_⟩
    · rw [flipStep, hm]
      dsimp only
      rw [if_neg (by rw [hup]; decide)]
    · intro j hj
      obtain ⟨hb1, ht1, hlt1, hd1⟩ := hall j hj
      refine ⟨hb1, ht1, ?_, hd1⟩
      intro hji
      rcases Nat.lt_succ_iff_lt_or_eq.mp hji with h | h
      · exact hlt1 h
      · subst h
        exact hup
  · obtain ⟨tid, htid⟩ := Option.isSome_iff_exists.mp ht
    obtain ⟨bid, hbid⟩ := Option.isSome_iff_exists.mp hb
    refine ⟨setMetalAt (setInterfaceMetal
        (setInterfaceMetal s tid none) bid (some m.name)) i
        { m with extend_direction := UP }, ?_, ?_, ?_⟩
    · rw [flipStep, hm]
      dsimp only
      rw [if_pos hdown, htid, hbid]
    · simp [setMetalAt, setInterfaceMetal, hn]
    · intro j hj
      simp only [setMetalAt, setInterfaceMetal, List.length_set] at hj
      by_cases hji : j = i
      · subst hji
        have hget : ((setMetalAt (setInterfaceMetal
            (setInterfaceMetal s tid none) bid (some m.name)) j
            { m with extend_direction := UP }).metal_layers.get
            ⟨j, by simpa [setMetalAt, setInterfaceMetal] using hj⟩) =
            { m with extend_direction := UP } := by
          simp only [setMetalAt, setInterfaceMetal, List.get_eq_getElem,
            List.getElem_set]
          simp
        rw [hget]
        exact ⟨hb, ht, fun _ => rfl, Or.inl rfl⟩
      · have hget : ((setMetalAt (setInterfaceMetal
            (setInterfaceMetal s tid none) bid (some m.name)) i
            { m with extend_direction := UP }).metal_layers.get
            ⟨j, by simpa [setMetalAt, setInterfaceMetal] using hj⟩) =
            s.metal_layers.get ⟨j, hj⟩ := by
          simp only [setMetalAt, setInterfaceMetal, List.get_eq_getElem,
            List.getElem_set]
          rw [if_neg (by omega)]
        rw [hget]
        obtain ⟨hb1, ht1, hlt1, hd1⟩ := hall j hj
        refine ⟨hb1, ht1, ?_, hd1⟩
        intro hji1
        exact hlt1 (by omega)

theorem standardizeLoop2_ok (n : Nat) :
    ∀ fuel s i, Loop2Inv n s i → s.metal_layers.length ≤ i + fuel →
    ∃ s2 i2, standardizeLoop2 fuel s i = .ok s2 ∧ Loop2Inv n s2 i2 ∧
      s2.metal_layers.length ≤ i2 := by
  intro fuel
  induction fuel with
  | zero =>
    intro s i hinv hle
    exact ⟨s, i, rfl, hinv, by simpa using hle⟩
  | succ fuel ih =>
    intro s i hinv hle
    rw [standardizeLoop2]
    by_cases hi : i < s.metal_layers.length
    · rw [if_pos hi]
      obtain ⟨s2, hstep, hinv2⟩ := flipStep_ok n s i hinv hi
      rw [hstep]
      refine ih s2 (i + 1) hinv2 ?_
      have hlen2 : s2.metal_layers.length = s.metal_layers.length := by
        rw [hinv2.1, hinv.1]
      omega
    · rw [if_neg hi]
      exact ⟨s, i, rfl, hinv, by omega⟩

end SubstrateStackPy

namespace SubstrateStackPy

/-- C2: on a stack whose every metal has exactly the one interface
matching its extension direction and whose missing boundary position is
attachable (at an existing interface or strictly inside an oxide
layer), `standardize()` returns successfully, and afterwards every
metal layer has both `bottom_interface` and `top_interface` set, every
metal extends `UP`, and `is_standard()` returns `True`. -/
theorem standardize_standardizes (s : SubstrateStack)
    (hwf : wfB s = true) (hready : standardizeReady s = true) :
    ∃ s2, standardize s = .ok s2 ∧ is_standard s2 = true ∧
      ∀ m ∈ s2.metal_layers, m.bottom_interface.isSome = true ∧
        m.top_interface.isSome = true ∧ m.extend_direction = UP := by
  obtain ⟨s1, i1, hl1, hinv1, hge1⟩ :=
    standardizeLoop1_ok s hwf hready s.metal_layers.length s 0
      (LoopInv.start s hwf) (by omega)
  have hinv20 : Loop2Inv s1.metal_layers.length s1 0 := by
    refine ⟨rfl, ?_⟩
    intro j hj
    have hji1 : j < i1 := lt_of_lt_of_le hj hge1
    obtain ⟨hb, ht, m0, hm0, hd⟩ := hinv1.mlo j hj hji1
    refine ⟨hb, ht, fun h => absurd h (Nat.not_lt_zero j), ?_⟩
    have hm0mem : m0 ∈ s.metal_layers := List.getElem?_mem hm0
    obtain ⟨hpre, _, _, _⟩ := standardizeReady_mem s hready m0 hm0mem
    rcases metalPre_cases s m0 hpre with ⟨hdir, _⟩ | ⟨hdir, _⟩
    · right
      rw [hd, hdir]
    · left
      rw [hd, hdir]
  obtain ⟨s2, i2, hl2, hinv2, hge2⟩ :=
    standardizeLoop2_ok s1.metal_layers.length s1.metal_layers.length
      s1 0 hinv20 (by omega)
  refine ⟨s2, ?_, ?_, ?_⟩
  · rw [standardize, hl1]
    exact hl2
  · rw [is_standard, List.all_eq_true]
    intro m hmem
    obtain ⟨⟨j, hj⟩, hget⟩ := List.mem_iff_get.mp hmem
    obtain ⟨hb, ht, hlt, _⟩ := hinv2.2 j hj
    rw [← hget]
    simp only [List.get_eq_getElem] at hb ht hlt
    simp [hb, ht, hlt (lt_of_lt_of_le hj hge2)]
  · intro m hmem
    obtain ⟨⟨j, hj⟩, hget⟩ := List.mem_iff_get.mp hmem
    obtain ⟨hb, ht, hlt, _⟩ := hinv2.2 j hj
    rw [← hget]
    exact ⟨hb, ht, hlt (lt_of_lt_of_le hj hge2)⟩

/-- C2 witness: the four-oxide stack with one UP metal attached at
interface 2 satisfies the hypotheses, and `standardize` returns a
standard stack. -/
theorem standardize_standardizes_witness :
    ∃ s2, standardize exStackM = .ok s2 ∧ is_standard s2 = true ∧
      ∀ m ∈ s2.metal_layers, m.bottom_interface.isSome = true ∧
        m.top_interface.isSome = true ∧ m.extend_direction = UP :=
  standardize_standardizes exStackM (by with_unfolding_all decide)
    (by with_unfolding_all decide)

end SubstrateStackPy

namespace SubstrateStackPy

/-- The stack's structural counting invariant: one more interface than
oxide layers (bulk top, the boundary between consecutive oxides, stack
top). -/
def interfaceInvariant (s : SubstrateStack) : Prop :=
  s.interfaces.length = s.oxide_layers.length + 1

theorem removeFirst_length {α : Type} (p : α → Bool) (l : List α) :
    ∀ l1, removeFirst p l = some l1 → l.length = l1.length + 1 := by
  induction l with
  | nil =>
    intro l1 h
    simp [removeFirst] at h
  | cons x xs ih =>
    intro l1 h
    rw [removeFirst] at h
    by_cases hp : p x
    · rw [if_pos hp] at h
      cases h
      simp
    · rw [if_neg hp] at h
      cases hx : removeFirst p xs with
      | none =>
        rw [hx] at h
        simp at h
      | some ys =>
        rw [hx] at h
        simp only [Option.map_some'] at h
        cases h
        simp [ih ys hx]

theorem mergeLoop_len (s0 : SubstrateStack) :
    ∀ (run : List Nat) (cur : SubstrateStack) (prev : Nat)
      (tt te tl : ℚ) (c2 : SubstrateStack) (t3 : ℚ × ℚ × ℚ),
      mergeLoop s0 cur prev run tt te tl = .ok (c2, t3) →
      ∀ d, cur.interfaces.length = cur.oxide_layers.length + d →
        c2.interfaces.length = c2.oxide_layers.length + d := by
  intro run
  induction run with
  | nil =>
    intro cur prev tt te tl c2 t3 h d hd
    rw [mergeLoop] at h
    cases h
    exact hd
  | cons layerId rest ih =>
    intro cur prev tt te tl c2 t3 h d hd
    rw [mergeLoop] at h
    dsimp only at h
    repeat' split at h
    all_goals try exact Except.noConfusion h
    rename_i itfs1 hitfs x oxs1 hoxs
    have hI := removeFirst_length _ cur.interfaces itfs1 hitfs
    have hL : cur.oxide_layers.length = oxs1.length + 1 :=
      removeFirst_length _ _ oxs1 hoxs
    refine ih _ _ _ _ _ _ _ h d ?_
    simp only
    omega

theorem merge_oxide_layers_len (s : SubstrateStack) (run : List Nat)
    (s2 : SubstrateStack) (h : merge_oxide_layers s run = .ok s2)
    (hinv : interfaceInvariant s) : interfaceInvariant s2 := by
  rw [merge_oxide_layers.eq_def] at h
  dsimp only at h
  repeat' split at h
  all_goals try exact Except.noConfusion h
  rename_i bid hfidx x2 ox hox x1 cur tt te tl hloop x oxs1 hoxs hnz
  cases h
  have hcur := mergeLoop_len s _ _ _ _ _ _ cur
    (tt, te, tl) hloop 1 hinv
  have hL : cur.oxide_layers.length = oxs1.length + 1 :=
    removeFirst_length _ _ oxs1 hoxs
  show cur.interfaces.length = _
  rw [insertAt_length]
  omega

end SubstrateStackPy

namespace SubstrateStackPy

theorem splitAux_len : ∀ (fuel : Nat) (s : SubstrateStack) (p : ℚ)
    (i : Nat) (f : Option Nat), interfaceInvariant s →
    interfaceInvariant (splitAux fuel s p i f).1 := by
  intro fuel
  induction fuel with
  | zero =>
    intro s p i f h
    rw [splitAux]
    exact h
  | succ fuel ih =>
    intro s p i f h
    rw [splitAux]
    dsimp only
    split
    · exact h
    · split
      · split
        · refine ih _ _ _ _ ?_
          simp only [interfaceInvariant] at h ⊢
          rw [insertAt_length, insertAt_length, List.length_set]
          omega
        · exact ih _ _ _ _ h
      · exact ih _ _ _ _ h

theorem standardizeStep_len (s : SubstrateStack) (i : Nat)
    (s2 : SubstrateStack) (h : standardizeStep s i = .ok s2)
    (hinv : interfaceInvariant s) : interfaceInvariant s2 := by
  rw [standardizeStep.eq_def] at h
  dsimp only at h
  repeat' split at h
  all_goals try exact Except.noConfusion h
  all_goals cases h
  all_goals first
    | exact hinv
    | exact splitAux_len _ _ _ _ _ hinv

theorem standardizeLoop1_len : ∀ (fuel : Nat) (s : SubstrateStack)
    (i : Nat) (s2 : SubstrateStack),
    standardizeLoop1 fuel s i = .ok s2 → interfaceInvariant s →
    interfaceInvariant s2 := by
  intro fuel
  induction fuel with
  | zero =>
    intro s i s2 h hinv
    rw [standardizeLoop1] at h
    cases h
    exact hinv
  | succ fuel ih =>
    intro s i s2 h hinv
    rw [standardizeLoop1] at h
    split at h
    · split at h
      · exact Except.noConfusion h
      · rename_i s1 hstep
        exact ih s1 (i + 1) s2 h (standardizeStep_len s i s1 hstep hinv)
    · cases h
      exact hinv

theorem flipStep_len (s : SubstrateStack) (i : Nat)
    (s2 : SubstrateStack) (h : flipStep s i = .ok s2)
    (hinv : interfaceInvariant s) : interfaceInvariant s2 := by
  rw [flipStep.eq_def] at h
  dsimp only at h
  repeat' split at h
  all_goals try exact Except.noConfusion h
  all_goals cases h
  all_goals first
    | exact hinv
    | simpa [interfaceInvariant, setInterfaceMetal, setMetalAt] using hinv

theorem standardizeLoop2_len : ∀ (fuel : Nat) (s : SubstrateStack)
    (i : Nat) (s2 : SubstrateStack),
    standardizeLoop2 fuel s i = .ok s2 → interfaceInvariant s →
    interfaceInvariant s2 := by
  intro fuel
  induction fuel with
  | zero =>
    intro s i s2 h hinv
    rw [standardizeLoop2] at h
    cases h
    exact hinv
  | succ fuel ih =>
    intro s i s2 h hinv
    rw [standardizeLoop2] at h
    split at h
    · split at h
      · exact Except.noConfusion h
      · rename_i s1 hstep
        exact ih s1 (i + 1) s2 h (flipStep_len s i s1 hstep hinv)
    · cases h
      exact hinv

theorem standardize_len (s : SubstrateStack) (s2 : SubstrateStack)
    (h : standardize s = .ok s2) (hinv : interfaceInvariant s) :
    interfaceInvariant s2 := by
  rw [standardize] at h
  split at h
  · exact Except.noConfusion h
  · rename_i s1 hl1
    exact standardizeLoop2_len _ _ _ _ h
      (standardizeLoop1_len _ _ _ _ hl1 hinv)

end SubstrateStackPy

namespace SubstrateStackPy

theorem simplifyStep_len (s : SubstrateStack) (i bIdx : Nat)
    (s2 : SubstrateStack) (b2 : Nat)
    (h : simplifyStep s i bIdx = .ok (s2, b2))
    (hinv : interfaceInvariant s) : interfaceInvariant s2 := by
  rw [simplifyStep.eq_def] at h
  dsimp only at h
  repeat' split at h
  all_goals try exact Except.noConfusion h
  all_goals cases h
  all_goals try exact hinv
  all_goals rename_i hmerge hfind hget
  all_goals exact merge_oxide_layers_len _ _ _ hmerge hinv

theorem simplifyLoop_len : ∀ (fuel : Nat) (s : SubstrateStack)
    (i bIdx : Nat) (s2 : SubstrateStack) (b2 : Nat),
    simplifyLoop fuel s i bIdx = .ok (s2, b2) → interfaceInvariant s →
    interfaceInvariant s2 := by
  intro fuel
  induction fuel with
  | zero =>
    intro s i bIdx s2 b2 h hinv
    rw [simplifyLoop] at h
    cases h
    exact hinv
  | succ fuel ih =>
    intro s i bIdx s2 b2 h hinv
    rw [simplifyLoop] at h
    split at h
    · split at h
      · exact Except.noConfusion h
      · rename_i s1 bIdx1 hstep
        exact ih s1 (i + 1) bIdx1 s2 b2 h
          (simplifyStep_len s i bIdx s1 bIdx1 hstep hinv)
    · cases h
      exact hinv

theorem simplify_len (s : SubstrateStack) (s2 : SubstrateStack)
    (h : simplify s = .ok s2) (hinv : interfaceInvariant s) :
    interfaceInvariant s2 := by
  rw [simplify] at h
  split at h
  · exact Except.noConfusion h
  · rename_i s1 hs1
    have hinv1 : interfaceInvariant s1 := by
      split at hs1
      · cases hs1
        exact hinv
      · exact standardize_len _ _ hs1 hinv
    dsimp only at h
    split at h
    · exact Except.noConfusion h
    · split at h
      · exact Except.noConfusion h
      · rename_i sl bIdx hloop
        have hinv2 := simplifyLoop_len _ _ _ _ _ _ hloop hinv1
        split at h
        · exact Except.noConfusion h
        · exact merge_oxide_layers_len _ _ _ h hinv2

end SubstrateStackPy

namespace SubstrateStackPy

/-- C4: a stack has one more interface than oxide layers.  The
invariant `len(interfaces) == N + 1` holds after construction
(`mkStack`) and is preserved by every mutating operation:
`add_oxide_layer_on_top`, `split_oxide_layer`, and returning calls of
`merge_oxide_layers`, `standardize` and `simplify`. -/
theorem interface_count_invariant :
    (∀ b, interfaceInvariant (mkStack b)) ∧
    (∀ s t e l, interfaceInvariant s →
      interfaceInvariant (add_oxide_layer_on_top s t e l)) ∧
    (∀ s p, interfaceInvariant s →
      interfaceInvariant (split_oxide_layer s p).1) ∧
    (∀ s run s2, interfaceInvariant s →
      merge_oxide_layers s run = .ok s2 → interfaceInvariant s2) ∧
    (∀ s s2, interfaceInvariant s → standardize s = .ok s2 →
      interfaceInvariant s2) ∧
    (∀ s s2, interfaceInvariant s → simplify s = .ok s2 →
      interfaceInvariant s2) := by
  refine ⟨fun b => rfl, ?_, ?_, ?_, ?_, ?_⟩
  · intro s t e l hinv
    show (s.interfaces ++ _).length = (s.oxide_layers ++ _).length + 1
    rw [List.length_append, List.length_append]
    simp only [List.length_cons, List.length_nil]
    rw [interfaceInvariant] at hinv
    omega
  · intro s p hinv
    exact splitAux_len _ _ _ _ _ hinv
  · intro s run s2 hinv h
    exact merge_oxide_layers_len s run s2 h hinv
  · intro s s2 hinv h
    exact standardize_len s s2 h hinv
  · intro s s2 hinv h
    exact simplify_len s s2 h hinv

/-- C4 witness: the invariant transfer applied on the four-oxide stack,
splitting inside the bottom layer and adding a layer on top. -/
theorem interface_count_invariant_witness :
    interfaceInvariant (split_oxide_layer exStack4 (1 / 2)).1 ∧
    interfaceInvariant (add_oxide_layer_on_top exStack4 1 3 0) :=
  ⟨interface_count_invariant.2.2.1 exStack4 (1 / 2)
      (by unfold interfaceInvariant; with_unfolding_all decide),
    interface_count_invariant.2.1 exStack4 1 3 0
      (by unfold interfaceInvariant; with_unfolding_all decide)⟩

end SubstrateStackPy
